import Mathlib

/-!
Verification development for the compass Feature Discovery Engine
(src/compass/agents/forwards_feature_agent.py and
src/compass/agents/backwards_feature_agent.py).

The Python code is shallowly embedded: floats become rationals, documents
become a record of the metadata fields the engine reads, Python dicts
(which preserve insertion order) become association lists, and every
external collaborator (the LLM oracle, sklearn clustering and cosine
similarity) becomes an explicit function parameter, constrained only by
hypotheses that state its documented contract.
-/

namespace Compass

/-! ## Python string primitives

The engine parses oracle answers with str.strip, str.lower, str.split,
str.startswith and int().  These are modelled here over Lean strings.
Python strips arbitrary unicode whitespace and int() additionally accepts
underscore digit separators; the ASCII fragment modelled here is what the
engine prompts can produce.
-/

/-- Whitespace recognised by Python str.strip and str.split. -/
def pyWS (c : Char) : Bool :=
  c = ' ' || c = '\t' || c = '\n' || c = '\r' || c = '\x0b' || c = '\x0c'

/-- Drop characters satisfying p from both ends of a character list. -/
def trimBy (p : Char → Bool) (l : List Char) : List Char :=
  ((l.dropWhile p).reverse.dropWhile p).reverse

/-- Python s.strip() restricted to ASCII whitespace. -/
def pyStrip (s : String) : String :=
  (trimBy pyWS s.data).asString

/-- Python s.startswith(pre), as a structural prefix test on the character
    lists. -/
def pyStartsWith (s pre : String) : Bool :=
  pre.data.isPrefixOf s.data

/-- Python s.strip(chars) for an explicit character set. -/
def pyStripChars (s : String) (cs : List Char) : String :=
  (trimBy (fun c => cs.contains c) s.data).asString

/-- Python s.lower() restricted to ASCII letters. -/
def pyLower (s : String) : String :=
  (s.data.map Char.toLower).asString

/-- Accumulator pass for Python s.split() with no separator:
    split on whitespace runs, discarding empty pieces. -/
def wsSplitGo : List Char → List Char → List (List Char)
  | [], acc => if acc.isEmpty then [] else [acc.reverse]
  | c :: rest, acc =>
    if pyWS c then
      if acc.isEmpty then wsSplitGo rest [] else acc.reverse :: wsSplitGo rest []
    else wsSplitGo rest (c :: acc)

/-- Python s.split() with no separator. -/
def pySplitWS (s : String) : List String :=
  (wsSplitGo s.data []).map List.asString

/-- Python s.split(newline)[0]: the characters before the first newline. -/
def firstLine (s : String) : String :=
  (s.data.takeWhile (fun c => c != '\n')).asString

/-- Numeric value of a decimal digit character. -/
def digitVal (c : Char) : ℕ := c.toNat - 48

/-- Value of a decimal digit string, most significant first. -/
def digitsVal (l : List Char) : ℕ :=
  l.foldl (fun a c => 10 * a + digitVal c) 0

/-- Python int(s): optional surrounding whitespace, optional sign, then a
    nonempty run of decimal digits (underscore separators not modelled). -/
def pyInt (s : String) : Option ℤ :=
  match trimBy pyWS s.data with
  | '-' :: ds => if ds ≠ [] ∧ ds.all Char.isDigit then some (-(digitsVal ds : ℤ)) else none
  | '+' :: ds => if ds ≠ [] ∧ ds.all Char.isDigit then some (digitsVal ds : ℤ) else none
  | ds => if ds ≠ [] ∧ ds.all Char.isDigit then some (digitsVal ds : ℤ) else none

/-! ## Decimal rendering facts

The split pass builds sub-cluster names with the f-string
f"{cname}_sub{sub_id+1}", i.e. with Nat.repr.  The partition invariant
needs that these generated names never collide, which rests on two facts
about Nat.repr proved here: it produces only digit characters, and it is
injective.
-/

theorem digitChar_isDigit {d : ℕ} (h : d < 10) : (Nat.digitChar d).isDigit = true := by
  interval_cases d <;> decide

theorem digitVal_digitChar {d : ℕ} (h : d < 10) : digitVal (Nat.digitChar d) = d := by
  interval_cases d <;> decide

theorem toDigitsCore_digits (f n : ℕ) (l : List Char)
    (hl : ∀ c ∈ l, c.isDigit = true) :
    ∀ c ∈ Nat.toDigitsCore 10 f n l, c.isDigit = true := by
  induction f generalizing n l with
  | zero => simpa [Nat.toDigitsCore] using hl
  | succ f ih =>
    simp only [Nat.toDigitsCore]
    have hd : (Nat.digitChar (n % 10)).isDigit = true :=
      digitChar_isDigit (Nat.mod_lt _ (by norm_num))
    by_cases h0 : n / 10 = 0
    · simp only [h0, if_pos rfl]
      intro c hc
      rcases List.mem_cons.1 hc with h | h
      · exact h ▸ hd
      · exact hl c h
    · simp only [if_neg h0]
      refine ih (n / 10) _ ?_
      intro c hc
      rcases List.mem_cons.1 hc with h | h
      · exact h ▸ hd
      · exact hl c h

theorem toDigitsCore_append (f n : ℕ) (l : List Char) :
    Nat.toDigitsCore 10 f n l = Nat.toDigitsCore 10 f n [] ++ l := by
  induction f generalizing n l with
  | zero => simp [Nat.toDigitsCore]
  | succ f ih =>
    simp only [Nat.toDigitsCore]
    by_cases h0 : n / 10 = 0
    · simp [h0]
    · simp only [if_neg h0]
      rw [ih (n / 10) (Nat.digitChar (n % 10) :: l), ih (n / 10) [Nat.digitChar (n % 10)],
        List.append_assoc]
      rfl

theorem digitsVal_append_singleton (l : List Char) (c : Char) :
    digitsVal (l ++ [c]) = 10 * digitsVal l + digitVal c := by
  simp [digitsVal, List.foldl_append]

theorem toDigitsCore_val (f n : ℕ) (hf : n < 10 ^ f) :
    digitsVal (Nat.toDigitsCore 10 f n []) = n := by
  induction f generalizing n with
  | zero =>
    interval_cases n
    simp [Nat.toDigitsCore, digitsVal]
  | succ f ih =>
    simp only [Nat.toDigitsCore]
    by_cases h0 : n / 10 = 0
    · have hn : n < 10 := by omega
      simp only [h0, if_pos rfl]
      have h1 : n % 10 = n := Nat.mod_eq_of_lt hn
      simp [digitsVal, h1, digitVal_digitChar hn]
    · simp only [if_neg h0]
      rw [toDigitsCore_append]
      rw [digitsVal_append_singleton]
      have hdiv : n / 10 < 10 ^ f := by
        rw [Nat.div_lt_iff_lt_mul (by norm_num : (0:ℕ) < 10)]
        calc n < 10 ^ (f + 1) := hf
        _ = 10 ^ f * 10 := by ring
      rw [ih (n / 10) hdiv, digitVal_digitChar (Nat.mod_lt _ (by norm_num))]
      omega

theorem toDigitsCore_ne_nil (f n : ℕ) (l : List Char) (hf : 0 < f) :
    l.length < (Nat.toDigitsCore 10 f n l).length := by
  induction f generalizing n l with
  | zero => omega
  | succ f ih =>
    simp only [Nat.toDigitsCore]
    by_cases h0 : n / 10 = 0
    · simp [h0]
    · simp only [if_neg h0]
      rcases Nat.eq_zero_or_pos f with hf0 | hfpos
      · subst hf0
        simp [Nat.toDigitsCore]
      · have := ih (n / 10) (Nat.digitChar (n % 10) :: l) hfpos
        simp only [List.length_cons] at this
        omega

theorem repr_data_digits (n : ℕ) : ∀ c ∈ (Nat.repr n).data, c.isDigit = true := by
  intro c hc
  have : (Nat.repr n).data = Nat.toDigits 10 n := rfl
  rw [this] at hc
  exact toDigitsCore_digits (n + 1) n [] (by simp) c hc

theorem repr_val (n : ℕ) : digitsVal (Nat.repr n).data = n := by
  have hdata : (Nat.repr n).data = Nat.toDigits 10 n := rfl
  rw [hdata]
  exact toDigitsCore_val (n + 1) n
    (lt_of_lt_of_le (Nat.lt_pow_self (by norm_num) n)
      (Nat.pow_le_pow_right (by norm_num) (Nat.le_succ n)))

theorem repr_injective : Function.Injective Nat.repr := by
  intro a b h
  have : digitsVal (Nat.repr a).data = digitsVal (Nat.repr b).data := by rw [h]
  rwa [repr_val, repr_val] at this

theorem repr_length_pos (n : ℕ) : 0 < (Nat.repr n).length := by
  have hdata : (Nat.repr n).data = Nat.toDigits 10 n := rfl
  have : ([] : List Char).length < (Nat.toDigits 10 n).length :=
    toDigitsCore_ne_nil (n + 1) n [] (Nat.succ_pos n)
  simpa [String.length, hdata] using this

/-! ## Sub-cluster name separation

A split of cluster cname into X parts names the parts with the f-string
f"{cname}_sub{sub_id+1}".  Because the suffix after the literal "_sub" is
a pure digit string, two such names agree only if both the parent name and
the index agree.
-/

def subMark : List Char := ['_', 's', 'u', 'b']

theorem sub_sep {x y p q : List Char}
    (hp : ∀ c ∈ p, c.isDigit = true) (hq : ∀ c ∈ q, c.isDigit = true)
    (h : x ++ subMark ++ p = y ++ subMark ++ q) : x = y ∧ p = q := by
  have key : ∀ x y p q : List Char, (∀ c ∈ q, c.isDigit = true) →
      p.length < q.length → x ++ subMark ++ p ≠ y ++ subMark ++ q := by
    intro x y p q hq hlt heq
    have hk : 0 < q.length - p.length := by omega
    have hqsplit : q = q.take (q.length - p.length) ++ q.drop (q.length - p.length) :=
      (List.take_append_drop _ q).symm
    have hlen : (q.drop (q.length - p.length)).length = p.length := by
      simp [List.length_drop]
      omega
    rw [hqsplit] at heq
    have heq2 : (x ++ subMark) ++ p =
        ((y ++ subMark) ++ q.take (q.length - p.length)) ++ q.drop (q.length - p.length) := by
      simpa [List.append_assoc] using heq
    obtain ⟨h1, _⟩ := List.append_inj' heq2 (by omega)
    have hrev := congrArg List.reverse h1
    simp only [List.reverse_append] at hrev
    have htk : 0 < (q.take (q.length - p.length)).length := by
      simp [List.length_take]
      omega
    rcases htake : (q.take (q.length - p.length)).reverse with _ | ⟨c, t⟩
    · have := congrArg List.length htake
      simp at this
      omega
    · have hc : c ∈ q := by
        have : c ∈ (q.take (q.length - p.length)).reverse := by rw [htake]; exact List.mem_cons_self _ _
        exact List.take_subset _ _ (List.mem_reverse.1 this)
      rw [htake] at hrev
      simp only [subMark, List.reverse_cons, List.reverse_nil, List.nil_append,
        List.cons_append, List.append_assoc] at hrev
      have hbc : 'b' = c := by
        have := congrArg (fun l => l.head?) hrev
        simpa using this
      have : c.isDigit = true := hq c hc
      rw [← hbc] at this
      simp at this
  rcases Nat.lt_trichotomy p.length q.length with hlt | heqlen | hgt
  · exact absurd h (key x y p q hq hlt)
  · have h2 : (x ++ subMark) ++ p = (y ++ subMark) ++ q := by
      simpa [List.append_assoc] using h
    obtain ⟨h1, h2⟩ := List.append_inj' h2 heqlen
    exact ⟨List.append_cancel_right h1, h2⟩
  · exact absurd h.symm (key y x q p hp hgt)

/-- Sub-cluster name f"{c}_sub{k}" from the split pass (used with k = sub_id + 1). -/
def subNameStr (c : String) (k : ℕ) : String :=
  c ++ "_sub" ++ Nat.repr k

theorem subNameStr_data (c : String) (k : ℕ) :
    (subNameStr c k).data = c.data ++ subMark ++ (Nat.repr k).data := by
  simp [subNameStr, String.data_append]
  rfl

theorem string_data_inj {s t : String} (h : s.data = t.data) : s = t := by
  cases s; cases t; exact congrArg String.mk (by simpa using h)

theorem subNameStr_inj {c c' : String} {k k' : ℕ}
    (h : subNameStr c k = subNameStr c' k') : c = c' ∧ k = k' := by
  have hdata := congrArg String.data h
  rw [subNameStr_data, subNameStr_data] at hdata
  obtain ⟨h1, h2⟩ := sub_sep (repr_data_digits k) (repr_data_digits k') hdata
  exact ⟨string_data_inj h1, repr_injective (string_data_inj h2)⟩

theorem subNameStr_length (c : String) (k : ℕ) :
    (subNameStr c k).length = c.length + 4 + (Nat.repr k).length := by
  simp [subNameStr, String.length_append]
  rfl

theorem length_lt_subNameStr (c : String) (k : ℕ) : c.length < (subNameStr c k).length := by
  have := repr_length_pos k
  rw [subNameStr_length]
  omega

theorem ne_subNameStr_of_short {s : String} (c : String) (k : ℕ)
    (h : s.length < 5) : s ≠ subNameStr c k := by
  intro he
  have := repr_length_pos k
  have hl := congrArg String.length he
  rw [subNameStr_length] at hl
  omega

/-! ## Documents and clustering state

A Document carries the metadata fields the engine reads.  Absent metadata
keys are modelled as the empty string: the Python code only ever tests
these fields for truthiness or equality with a nonempty literal, so None
and the empty string are indistinguishable to it.

A ClusteringState (Python dict from cluster name to a list of document
indices) is an insertion-ordered association list; Python dict keys are
unique, which is the well-formedness predicate WFCD.
-/

structure Doc where
  page_content : String
  summary_level : String
  method_name : String
  calls : String
  inherits_from : String
  file_path : String
deriving DecidableEq

def defaultDoc : Doc := ⟨"", "", "", "", "", ""⟩

abbrev ClusterDict := List (String × List ℕ)

def keysCD (d : ClusterDict) : List String := d.map Prod.fst

def lookupCD : ClusterDict → String → Option (List ℕ)
  | [], _ => none
  | (k, v) :: rest, n => if k = n then some v else lookupCD rest n

/-- Python cluster_dict[k] (indexing a key known to be present). -/
def getCD (d : ClusterDict) (k : String) : List ℕ :=
  (lookupCD d k).getD []

/-- Python dict assignment d[k] = v: update in place, or append a new key. -/
def setCD : ClusterDict → String → List ℕ → ClusterDict
  | [], k, v => [(k, v)]
  | (k', v') :: rest, k, v =>
    if k' = k then (k, v) :: rest else (k', v') :: setCD rest k v

/-- Python d.pop(k): remove the (first, hence with unique keys the only)
    entry with key k. -/
def popCD : ClusterDict → String → ClusterDict
  | [], _ => []
  | (k', v') :: rest, k => if k' = k then rest else (k', v') :: popCD rest k

/-- Python d.setdefault(k, []).append(i). -/
def appendCD : ClusterDict → String → ℕ → ClusterDict
  | [], k, i => [(k, [i])]
  | (k', v) :: rest, k, i =>
    if k' = k then (k', v ++ [i]) :: rest else (k', v) :: appendCD rest k i

/-- Multiset of all member indices of all clusters. -/
def membersCD (d : ClusterDict) : Multiset ℕ :=
  (d.map fun p => (↑p.2 : Multiset ℕ)).sum

/-- Python dict invariant: keys are unique. -/
def WFCD (d : ClusterDict) : Prop := (keysCD d).Nodup

theorem lookupCD_mem_keys {d : ClusterDict} {k : String} :
    k ∈ keysCD d ↔ (lookupCD d k).isSome := by
  induction d with
  | nil => simp [keysCD, lookupCD]
  | cons p rest ih =>
    obtain ⟨k', v'⟩ := p
    by_cases h : k' = k
    · subst h
      simp [keysCD, lookupCD]
    · constructor
      · intro hm
        rcases List.mem_cons.1 hm with h1 | h1
        · exact absurd h1.symm h
        · simpa [lookupCD, h] using ih.1 h1
      · intro hs
        have hs2 : (lookupCD rest k).isSome = true := by simpa [lookupCD, h] using hs
        exact List.mem_cons_of_mem _ (ih.2 hs2)

theorem lookupCD_eq_none {d : ClusterDict} {k : String} :
    lookupCD d k = none ↔ k ∉ keysCD d := by
  rw [lookupCD_mem_keys]
  cases lookupCD d k <;> simp

theorem lookupCD_of_mem {d : ClusterDict} {k : String} {v : List ℕ}
    (hwf : WFCD d) (h : (k, v) ∈ d) : lookupCD d k = some v := by
  induction d with
  | nil => simp at h
  | cons p rest ih =>
    obtain ⟨k', v'⟩ := p
    rcases List.mem_cons.1 h with h1 | h1
    · obtain ⟨rfl, rfl⟩ := Prod.mk.inj h1
      simp [lookupCD]
    · have hwf2 : k' ∉ keysCD rest ∧ WFCD rest := by
        have h3 := hwf
        simp only [WFCD, keysCD, List.map_cons, List.nodup_cons] at h3
        exact h3
      have hk : k ∈ keysCD rest := List.mem_map.2 ⟨(k, v), h1, rfl⟩
      have hne : k' ≠ k := fun he => hwf2.1 (he ▸ hk)
      simp only [lookupCD, if_neg hne]
      exact ih hwf2.2 h1

theorem mem_of_lookupCD {d : ClusterDict} {k : String} {v : List ℕ}
    (h : lookupCD d k = some v) : (k, v) ∈ d := by
  induction d with
  | nil => simp [lookupCD] at h
  | cons p rest ih =>
    obtain ⟨k', v'⟩ := p
    by_cases he : k' = k
    · subst he
      simp [lookupCD] at h
      rw [← h]
      exact List.mem_cons_self _ _
    · simp only [lookupCD, if_neg he] at h
      exact List.mem_cons_of_mem _ (ih h)

theorem keysCD_setCD_mem {d : ClusterDict} {k : String} (v : List ℕ)
    (h : k ∈ keysCD d) : keysCD (setCD d k v) = keysCD d := by
  induction d with
  | nil => simp [keysCD] at h
  | cons p rest ih =>
    obtain ⟨k', v'⟩ := p
    by_cases he : k' = k
    · subst he
      simp [setCD, keysCD]
    · simp only [keysCD, List.map_cons] at h
      rcases List.mem_cons.1 h with h1 | h1
      · exact absurd h1.symm he
      · have := ih h1
        simp only [keysCD] at this
        simp [setCD, keysCD, if_neg he, this]

theorem setCD_fresh {d : ClusterDict} {k : String} (v : List ℕ)
    (h : k ∉ keysCD d) : setCD d k v = d ++ [(k, v)] := by
  induction d with
  | nil => simp [setCD]
  | cons p rest ih =>
    obtain ⟨k', v'⟩ := p
    simp only [keysCD, List.map_cons, List.mem_cons] at h
    push_neg at h
    simp [setCD, if_neg (Ne.symm h.1), ih h.2]

theorem lookupCD_setCD_self {d : ClusterDict} (k : String) (v : List ℕ) :
    lookupCD (setCD d k v) k = some v := by
  induction d with
  | nil => simp [setCD, lookupCD]
  | cons p rest ih =>
    obtain ⟨k', v'⟩ := p
    by_cases he : k' = k <;> simp [setCD, lookupCD, he, ih]

theorem lookupCD_setCD_ne {d : ClusterDict} {k n : String} (v : List ℕ)
    (h : k ≠ n) : lookupCD (setCD d k v) n = lookupCD d n := by
  induction d with
  | nil => simp [setCD, lookupCD, h]
  | cons p rest ih =>
    obtain ⟨k', v'⟩ := p
    by_cases he : k' = k
    · subst he
      simp [setCD, lookupCD, h]
    · have hnk : ¬n = k := fun hh => h hh.symm
      by_cases hn : k' = n <;> simp [setCD, lookupCD, he, hn, hnk, ih]

theorem lookupCD_popCD_ne {d : ClusterDict} {k n : String}
    (h : k ≠ n) : lookupCD (popCD d k) n = lookupCD d n := by
  induction d with
  | nil => simp [popCD]
  | cons p rest ih =>
    obtain ⟨k', v'⟩ := p
    by_cases he : k' = k
    · subst he
      simp [popCD, lookupCD, h]
    · have hnk : ¬n = k := fun hh => h hh.symm
      by_cases hn : k' = n <;> simp [popCD, lookupCD, he, hn, hnk, ih]

theorem keysCD_popCD (d : ClusterDict) (k : String) :
    keysCD (popCD d k) = (keysCD d).erase k := by
  induction d with
  | nil => simp [popCD, keysCD]
  | cons p rest ih =>
    obtain ⟨k', v'⟩ := p
    by_cases he : k' = k
    · subst he
      simp [popCD, keysCD, List.erase_cons_head]
    · have herase : (k' :: keysCD rest).erase k = k' :: (keysCD rest).erase k :=
        List.erase_cons_tail (by simpa using he)
      have := ih
      simp only [keysCD] at this herase
      simp [popCD, keysCD, he, herase, this]

theorem popCD_not_mem {d : ClusterDict} {k : String} (h : k ∉ keysCD d) :
    popCD d k = d := by
  induction d with
  | nil => simp [popCD]
  | cons p rest ih =>
    obtain ⟨k', v'⟩ := p
    simp only [keysCD, List.map_cons, List.mem_cons] at h
    push_neg at h
    simp [popCD, if_neg (Ne.symm h.1), ih h.2]

theorem lookupCD_popCD_self {d : ClusterDict} {k : String} (hwf : WFCD d) :
    lookupCD (popCD d k) k = none := by
  rw [lookupCD_eq_none, keysCD_popCD]
  exact List.Nodup.not_mem_erase hwf

theorem membersCD_setCD {d : ClusterDict} {k : String} {v : List ℕ} (w : List ℕ)
    (h : lookupCD d k = some v) :
    membersCD (setCD d k w) + ↑v = membersCD d + ↑w := by
  induction d with
  | nil => simp [lookupCD] at h
  | cons p rest ih =>
    obtain ⟨k', v'⟩ := p
    by_cases he : k' = k
    · subst he
      simp [lookupCD] at h
      rw [← h]
      simp [setCD, membersCD]
      abel
    · simp only [lookupCD, if_neg he] at h
      simp only [setCD, if_neg he, membersCD, List.map_cons, List.sum_cons]
      have := ih h
      simp only [membersCD] at this
      rw [add_assoc, this]
      abel

theorem membersCD_popCD {d : ClusterDict} {k : String} {v : List ℕ}
    (h : lookupCD d k = some v) :
    membersCD (popCD d k) + ↑v = membersCD d := by
  induction d with
  | nil => simp [lookupCD] at h
  | cons p rest ih =>
    obtain ⟨k', v'⟩ := p
    by_cases he : k' = k
    · subst he
      simp [lookupCD] at h
      rw [← h]
      simp [popCD, membersCD]
      abel
    · simp only [lookupCD, if_neg he] at h
      simp only [popCD, if_neg he, membersCD, List.map_cons, List.sum_cons]
      have := ih h
      simp only [membersCD] at this
      rw [add_assoc, this]

theorem membersCD_append (d : ClusterDict) (k : String) (v : List ℕ) :
    membersCD (d ++ [(k, v)]) = membersCD d + ↑v := by
  simp [membersCD]

theorem membersCD_appendCD (d : ClusterDict) (k : String) (i : ℕ) :
    membersCD (appendCD d k i) = i ::ₘ membersCD d := by
  induction d with
  | nil => simp [appendCD, membersCD]
  | cons p rest ih =>
    obtain ⟨k', v'⟩ := p
    by_cases he : k' = k
    · subst he
      simp [appendCD, membersCD]
      rw [← Multiset.coe_add, ← Multiset.singleton_add, Multiset.coe_singleton i]
      abel
    · simp only [appendCD, if_neg he, membersCD, List.map_cons, List.sum_cons]
      have := ih
      simp only [membersCD] at this
      rw [this, ← Multiset.singleton_add, ← Multiset.singleton_add]
      abel

theorem WFCD_setCD_mem {d : ClusterDict} {k : String} (v : List ℕ)
    (hwf : WFCD d) (h : k ∈ keysCD d) : WFCD (setCD d k v) := by
  unfold WFCD
  rw [keysCD_setCD_mem v h]
  exact hwf

theorem WFCD_popCD {d : ClusterDict} (k : String) (hwf : WFCD d) :
    WFCD (popCD d k) := by
  unfold WFCD
  rw [keysCD_popCD]
  exact hwf.erase k

theorem mem_membersCD {d : ClusterDict} {x : ℕ} :
    x ∈ membersCD d ↔ ∃ p ∈ d, x ∈ p.2 := by
  induction d with
  | nil => simp [membersCD]
  | cons p rest ih =>
    simp only [membersCD, List.map_cons, List.sum_cons, Multiset.mem_add, List.mem_cons]
    constructor
    · rintro (h | h)
      · exact ⟨p, Or.inl rfl, by simpa using h⟩
      · obtain ⟨q, hq, hx⟩ := ih.1 (by simpa [membersCD] using h)
        exact ⟨q, Or.inr hq, hx⟩
    · rintro ⟨q, hq | hq, hx⟩
      · subst hq
        exact Or.inl (by simpa using hx)
      · exact Or.inr (by
          have : x ∈ membersCD rest := ih.2 ⟨q, hq, hx⟩
          simpa [membersCD] using this)

/-! ## Relationship graph builder (ForwardsFeatureAgent._build_adjacency_map)

The LLM model, sklearn clustering, and sklearn cosine_similarity are
external collaborators; they enter the embedding as function parameters.
Floats are modelled as rationals.
-/

inductive RelType where
  | calls
  | called_by
  | inherits
  | inherited_by
deriving DecidableEq

/-- RELATIONSHIP_WEIGHTS from _adjacency_weighted_distance. -/
def RELATIONSHIP_WEIGHTS : RelType → ℚ
  | .inherits => 2/5
  | .inherited_by => 1/2
  | .calls => 3/5
  | .called_by => 7/10

abbrev AdjMap := ℕ → ℕ → Option RelType

/-- Python adjacency[i][j] = r (later writes overwrite earlier ones). -/
def updAdj (m : AdjMap) (i j : ℕ) (r : RelType) : AdjMap :=
  fun a b => if a = i ∧ b = j then some r else m a b

/-- Lookup dict from method name to document index; built in document
    order, later documents with the same method name overwrite earlier
    ones, exactly as repeated Python dict assignment does. -/
def methodToIdx (docs : List Doc) : String → Option ℕ :=
  docs.enum.foldl
    (fun acc p =>
      if p.2.summary_level = "method" ∧ p.2.method_name ≠ "" then
        fun n => if n = p.2.method_name then some p.1 else acc n
      else acc)
    (fun _ => none)

/-- Python s.split(",") for the comma-separated relation metadata. -/
def splitCommaGo : List Char → List Char → List String
  | [], acc => [acc.reverse.asString]
  | c :: rest, acc =>
    if c = ',' then acc.reverse.asString :: splitCommaGo rest []
    else splitCommaGo rest (c :: acc)

def splitOnComma (s : String) : List String := splitCommaGo s.data []

/-- One relation target: the source guards the edge with
    "if called_method and (called_idx := method_to_idx.get(called_method))",
    whose Python truthiness silently drops a target that resolves to
    index 0 in addition to targets absent from the lookup. -/
def addEdgePair (mti : String → Option ℕ) (i : ℕ) (tgt : String)
    (fwd bwd : RelType) (m : AdjMap) : AdjMap :=
  if tgt = "" then m
  else
    match mti tgt with
    | none => m
    | some k => if k = 0 then m else updAdj (updAdj m i k fwd) k i bwd

/-- Edges contributed by one document (calls first, then inheritance). -/
def docEdges (mti : String → Option ℕ) (i : ℕ) (d : Doc) (m : AdjMap) : AdjMap :=
  if d.summary_level ≠ "method" then m
  else
    let m1 :=
      if d.calls ≠ "" then
        (splitOnComma d.calls).foldl
          (fun acc t => addEdgePair mti i t RelType.calls RelType.called_by acc) m
      else m
    if d.inherits_from ≠ "" then
      (splitOnComma d.inherits_from).foldl
        (fun acc t => addEdgePair mti i t RelType.inherits RelType.inherited_by acc) m1
    else m1

/-- ForwardsFeatureAgent._build_adjacency_map. -/
def buildAdjacencyMap (docs : List Doc) : AdjMap :=
  docs.enum.foldl (fun m p => docEdges (methodToIdx docs) p.1 p.2 m) (fun _ _ => none)

/-- ForwardsFeatureAgent._adjacency_weighted_distance: multiply the entry
    for every explicit off-diagonal edge by its relationship weight; every
    other entry is returned untouched. -/
def adjacencyWeightedDistance (base : ℕ → ℕ → ℚ) (adj : AdjMap) : ℕ → ℕ → ℚ :=
  fun i j =>
    match adj i j with
    | some r => if i ≠ j then base i j * RELATIONSHIP_WEIGHTS r else base i j
    | none => base i j

/-! ## Cluster summaries and initial clustering -/

/-- Accumulator loop of _build_cluster_summary: truncate each document to
    max_per_doc characters and stop before the total exceeds max_chars. -/
def summaryGo (docs : List Doc) (maxChars maxPerDoc : ℕ) :
    List ℕ → ℕ → List String → List String
  | [], _, out => out.reverse
  | idx :: rest, total, out =>
    let snippet := (docs.getD idx defaultDoc).page_content.take maxPerDoc
    if maxChars < total + snippet.length then out.reverse
    else summaryGo docs maxChars maxPerDoc rest (total + snippet.length) (snippet :: out)

/-- ForwardsFeatureAgent._build_cluster_summary with its default budgets
    (2000 characters total, 500 per document). -/
def buildClusterSummary (docs : List Doc) (idxs : List ℕ) : String :=
  String.intercalate "\n" (summaryGo docs 2000 500 idxs 0 [])

/-- ForwardsFeatureAgent._initial_clustering, after sklearn
    AgglomerativeClustering returned one label per document: the dict is
    built with setdefault-append in document order.  The label function is
    a parameter because sklearn is an external collaborator. -/
def initialClustering (n : ℕ) (labels : ℕ → ℕ) : ClusterDict :=
  (List.range n).foldl
    (fun d i => appendCD d ("Cluster_" ++ Nat.repr (labels i)) i) []

/-! ## Oracle-guided merge pass (_attempt_merges)

The while loops of the source mutate the scanned name list in place; the
embedding uses an explicit fuel argument as the structural recursion
measure.  Every lemma below holds for every fuel value, and the top-level
entry point passes fuel that dominates the loop variant
(each inner step removes a name or advances j; each outer step removes a
name or advances i), so exhaustion is unreachable.
-/

/-- Decision parsing of _llm_says_merge:
    model response, .strip(), .lower(), .startswith("yes"). -/
def mergeDecision (resp : String) : Bool :=
  pyStartsWith (pyLower (pyStrip resp)) "yes"

/-- Response text of the merge oracle, as a function of the four prompt
    fields (cluster names and bounded summaries). -/
abbrev MergeResp := String → String → String → String → String

def llmSaysMerge (mresp : MergeResp) (docs : List Doc)
    (cA : String) (aIdx : List ℕ) (cB : String) (bIdx : List ℕ) : Bool :=
  mergeDecision
    (mresp cA (buildClusterSummary docs aIdx) cB (buildClusterSummary docs bIdx))

/-- Inner while loop of _attempt_merges: scan j over the names after i,
    absorbing cluster names[j] into cluster names[i] whenever the oracle
    agrees. -/
def mergeInner (mresp : MergeResp) (docs : List Doc) :
    ℕ → ClusterDict → List String → ℕ → ℕ → ClusterDict × List String
  | 0, d, names, _, _ => (d, names)
  | fuel + 1, d, names, i, j =>
    if j < names.length then
      let cA := names.getD i ""
      let cB := names.getD j ""
      if llmSaysMerge mresp docs cA (getCD d cA) cB (getCD d cB) then
        mergeInner mresp docs fuel
          (popCD (setCD d cA (getCD d cA ++ getCD d cB)) cB) (names.eraseIdx j) i j
      else mergeInner mresp docs fuel d names i (j + 1)
    else (d, names)

/-- Outer while loop of _attempt_merges: merged_any is observable as the
    name list having shrunk, since popping names is the only mutation. -/
def mergeOuter (mresp : MergeResp) (docs : List Doc) :
    ℕ → ClusterDict → List String → ℕ → ClusterDict
  | 0, d, _, _ => d
  | fuel + 1, d, names, i =>
    if i < names.length then
      let r := mergeInner mresp docs names.length d names i (i + 1)
      if r.2.length < names.length then mergeOuter mresp docs fuel r.1 r.2 i
      else mergeOuter mresp docs fuel r.1 r.2 (i + 1)
    else d

/-- ForwardsFeatureAgent._attempt_merges. -/
def attemptMerges (mresp : MergeResp) (docs : List Doc) (d : ClusterDict) : ClusterDict :=
  mergeOuter mresp docs (2 * (keysCD d).length + 1) d (keysCD d) 0

/-! ## Oracle-guided split pass (_attempt_splits, _llm_says_split) -/

/-- ForwardsFeatureAgent._llm_says_split: strip and lowercase the response;
    a directive must start with the literal "split into" and carry an
    int()-parsable third whitespace token, otherwise the answer is None.
    The int() call is guarded by try/except in the source, so parsing can
    never raise. -/
def llmSaysSplit (resp : String) : Option ℤ :=
  let r := pyLower (pyStrip resp)
  if pyStartsWith r "split into" then
    let parts := pySplitWS r
    if 3 ≤ parts.length then pyInt (parts.getD 2 "") else none
  else none

/-- Response text of the split oracle (cluster name, bounded summary). -/
abbrev SplitResp := String → String → String

/-- Sub-cluster member selection
    [doc_indices[i] for i, lbl in enumerate(sub_labels) if lbl == sub_id]. -/
def selectLbl (dis labels : List ℕ) (s : ℕ) : List ℕ :=
  ((dis.zip labels).filter (fun p => p.2 = s)).map Prod.fst

/-- Replacement of one cluster by its X sub-clusters, then removal of the
    original name. -/
def splitApply (d : ClusterDict) (cname : String) (dis labels : List ℕ) (x : ℕ) :
    ClusterDict :=
  popCD
    ((List.range x).foldl
      (fun acc s => setCD acc (subNameStr cname (s + 1)) (selectLbl dis labels s)) d)
    cname

/-- Body of one iteration of the _attempt_splits loop for cluster cname.
    A missing key is skipped; in the source the snapshot key is always
    still present when reached, so that branch is unreachable along the
    real control flow. -/
def splitDecide (d : ClusterDict) (cname : String) (dis : List ℕ)
    (labelsOf : ℕ → List ℕ) : Option ℤ → ClusterDict
  | some x => if 1 < x then splitApply d cname dis (labelsOf x.toNat) x.toNat else d
  | none => d

def splitStep (sresp : SplitResp) (sub : List ℕ → ℕ → List ℕ) (docs : List Doc)
    (d : ClusterDict) (cname : String) : ClusterDict :=
  match lookupCD d cname with
  | none => d
  | some dis =>
    splitDecide d cname dis (sub dis)
      (llmSaysSplit (sresp cname (buildClusterSummary docs dis)))

/-- Loop of _attempt_splits over the snapshot of cluster names taken
    before the first mutation. -/
def splitsGo (sresp : SplitResp) (sub : List ℕ → ℕ → List ℕ) (docs : List Doc) :
    ClusterDict → List String → ClusterDict
  | d, [] => d
  | d, cname :: rest =>
    splitsGo sresp sub docs (splitStep sresp sub docs d cname) rest

/-- ForwardsFeatureAgent._attempt_splits; sub is the sklearn
    _subcluster call (index list and requested count to label list). -/
def attemptSplits (sresp : SplitResp) (sub : List ℕ → ℕ → List ℕ)
    (docs : List Doc) (d : ClusterDict) : ClusterDict :=
  splitsGo sresp sub docs d (keysCD d)

/-! ## Size normalizer (_enforce_min_cluster_size)

Embedding vectors are rows of rationals; np.mean over the member rows is
the centroid.  sklearn cosine_similarity on two centroids is the external
parameter csim; theorems that need it assume only its documented range
(cosine similarity of real vectors lies in the interval from -1 to 1,
comfortably above the -999 sentinel the source initialises best_sim to).
-/

def vecAdd (u v : List ℚ) : List ℚ := List.zipWith (· + ·) u v

def vecSum : List (List ℚ) → List ℚ
  | [] => []
  | [v] => v
  | v :: rest => vecAdd v (vecSum rest)

def vecScale (q : ℚ) (v : List ℚ) : List ℚ := v.map (q * ·)

/-- np.mean(full_embeddings[indices], axis=0). -/
def centroid (emb : ℕ → List ℚ) (idxs : List ℕ) : List ℚ :=
  vecScale (1 / (idxs.length : ℚ)) (vecSum (idxs.map emb))

/-- Inner scan of _enforce_min_cluster_size: over the snapshot of names,
    skipping the cluster itself and names already popped, track the
    best (strictly larger) similarity starting from the -999 sentinel. -/
def bestOtherGo (csim : List ℚ → List ℚ → ℚ) (cent : String → List ℚ)
    (d : ClusterDict) (cname : String) :
    List String → Option String → ℚ → Option String
  | [], best, _ => best
  | other :: rest, best, bestSim =>
    if other = cname ∨ lookupCD d other = none then
      bestOtherGo csim cent d cname rest best bestSim
    else
      let s := csim (cent cname) (cent other)
      if bestSim < s then bestOtherGo csim cent d cname rest (some other) s
      else bestOtherGo csim cent d cname rest best bestSim

def bestOther (csim : List ℚ → List ℚ → ℚ) (cent : String → List ℚ)
    (d : ClusterDict) (snapshot : List String) (cname : String) : Option String :=
  bestOtherGo csim cent d cname snapshot none (-999)

/-- Body of one iteration of the _enforce_min_cluster_size loop for
    cluster cname: a surviving undersized cluster is absorbed into the
    most similar other cluster, whose stored centroid is then recomputed
    from the merged member list. -/
def enforceDecide (csim : List ℚ → List ℚ → ℚ) (emb : ℕ → List ℚ) (minSize : ℕ)
    (snapshot : List String) (d : ClusterDict) (cent : String → List ℚ)
    (cname : String) : Option (List ℕ) → ClusterDict × (String → List ℚ)
  | none => (d, cent)
  | some mems =>
    if mems.length < minSize then
      match bestOther csim cent d snapshot cname with
      | none => (d, cent)
      | some tgt =>
        let merged := getCD d tgt ++ mems
        (popCD (setCD d tgt merged) cname,
          fun n => if n = tgt then centroid emb merged else cent n)
    else (d, cent)

def enforceStep (csim : List ℚ → List ℚ → ℚ) (emb : ℕ → List ℚ) (minSize : ℕ)
    (snapshot : List String) (d : ClusterDict) (cent : String → List ℚ)
    (cname : String) : ClusterDict × (String → List ℚ) :=
  enforceDecide csim emb minSize snapshot d cent cname (lookupCD d cname)

/-- Main loop of _enforce_min_cluster_size over the snapshot of names. -/
def enforceGo (csim : List ℚ → List ℚ → ℚ) (emb : ℕ → List ℚ) (minSize : ℕ)
    (snapshot : List String) :
    ClusterDict → (String → List ℚ) → List String → ClusterDict
  | d, _, [] => d
  | d, cent, cname :: rest =>
    let r := enforceStep csim emb minSize snapshot d cent cname
    enforceGo csim emb minSize snapshot r.1 r.2 rest

/-- ForwardsFeatureAgent._enforce_min_cluster_size. -/
def enforceMinClusterSize (csim : List ℚ → List ℚ → ℚ) (emb : ℕ → List ℚ)
    (minSize : ℕ) (d : ClusterDict) : ClusterDict :=
  enforceGo csim emb minSize (keysCD d) d (fun n => centroid emb (getCD d n)) (keysCD d)

/-! ## Final naming (_final_naming)

The naming oracle can raise (model.invoke is not wrapped in try/except in
the source), which the embedding expresses with Except: an error makes the
whole pass, and with it the run, fail.
-/

/-- Name extraction from a successful response:
    response.content.strip().split(newline)[0].strip(" -:*"). -/
def featureNameOf (resp : String) : String :=
  pyStripChars (firstLine (pyStrip resp)) [' ', '-', ':', '*']

/-- reference_list_str built in _final_naming from known_features. -/
def referenceListStr (known : List String) : String :=
  if known = [] then "None" else String.intercalate "\n" known

/-- Response of the naming oracle as a function of the two prompt fields
    (bounded cluster summary and the known-feature reference list); an
    Except.error models a raised exception or timeout. -/
abbrev NameResp := String → String → Except Unit String

/-- Body of one iteration of the _final_naming loop: ask the oracle, and
    on success insert the cluster under the extracted name, concatenating
    onto an existing entry on a name collision. -/
def namingStep (nresp : NameResp) (docs : List Doc) (known : List String)
    (acc : List (String × List ℕ)) (dis : List ℕ) :
    Except Unit (List (String × List ℕ)) :=
  match nresp (buildClusterSummary docs dis) (referenceListStr known) with
  | Except.error e => Except.error e
  | Except.ok resp =>
    let fname := featureNameOf resp
    match lookupCD acc fname with
    | some v => Except.ok (setCD acc fname (v ++ dis))
    | none => Except.ok (acc ++ [(fname, dis)])

/-- Loop of _final_naming; an oracle exception aborts the whole pass. -/
def namingGo (nresp : NameResp) (docs : List Doc) (known : List String) :
    List (String × List ℕ) → ClusterDict → Except Unit (List (String × List ℕ))
  | acc, [] => Except.ok acc
  | acc, (_cname, dis) :: rest =>
    match namingStep nresp docs known acc dis with
    | Except.error e => Except.error e
    | Except.ok acc2 => namingGo nresp docs known acc2 rest

/-- ForwardsFeatureAgent._final_naming.  The unused cname binder in the
    loop mirrors the source, which iterates items() but never reads the
    old cluster name in the prompt. -/
def finalNaming (nresp : NameResp) (docs : List Doc) (known : List String)
    (d : ClusterDict) : Except Unit (List (String × List ℕ)) :=
  namingGo nresp docs known [] d

/-! ## Refinement loop (_single_pass_merge_splits and _call) -/

/-- ForwardsFeatureAgent._single_pass_merge_splits:
    merge, normalize, split, normalize. -/
def singlePassMergeSplits (mresp : MergeResp) (sresp : SplitResp)
    (sub : List ℕ → ℕ → List ℕ) (docs : List Doc)
    (csim : List ℚ → List ℚ → ℚ) (emb : ℕ → List ℚ) (minSize : ℕ)
    (d : ClusterDict) : ClusterDict :=
  enforceMinClusterSize csim emb minSize
    (attemptSplits sresp sub docs
      (enforceMinClusterSize csim emb minSize
        (attemptMerges mresp docs d)))

/-- Python set(a) == set(b) for two index lists. -/
def listSetEqB (a b : List ℕ) : Bool :=
  a.all (fun x => b.contains x) && b.all (fun x => a.contains x)

/-- Python new_dict.keys() == cluster_dict.keys() (set comparison). -/
def keysSetEqB (a b : ClusterDict) : Bool :=
  (keysCD a).all (fun k => (keysCD b).contains k) &&
  (keysCD b).all (fun k => (keysCD a).contains k)

/-- Stability check of _call: equal key sets, and for every key of the new
    state an equal member set against cluster_dict.get(k, []). -/
def stableB (newD oldD : ClusterDict) : Bool :=
  keysSetEqB newD oldD &&
  (keysCD newD).all (fun k => listSetEqB (getCD newD k) (getCD oldD k))

/-- Iteration loop of _call: for it in range(max_iterations), run one pass
    and stop early when the state is stable; the last computed state is
    kept either way. -/
def refineAux (step : ℕ → ClusterDict → ClusterDict) :
    ClusterDict → ℕ → ℕ → ClusterDict
  | cur, _, 0 => cur
  | cur, it, fuel + 1 =>
    let newD := step it cur
    if stableB newD cur then newD else refineAux step newD (it + 1) fuel

/-- The refinement loop of _call with its hardcoded max_iterations = 5. -/
def refineLoop (step : ℕ → ClusterDict → ClusterDict) (d0 : ClusterDict) : ClusterDict :=
  refineAux step d0 0 5

/-- Number of passes the loop actually executes. -/
def refineRounds (step : ℕ → ClusterDict → ClusterDict) :
    ClusterDict → ℕ → ℕ → ℕ
  | _, _, 0 => 0
  | cur, it, fuel + 1 =>
    let newD := step it cur
    if stableB newD cur then 1 else 1 + refineRounds step newD (it + 1) fuel

/-- State after running the first n passes unconditionally, starting at
    round index it. -/
def iterFrom (step : ℕ → ClusterDict → ClusterDict) :
    ClusterDict → ℕ → ℕ → ClusterDict
  | cur, _, 0 => cur
  | cur, it, n + 1 => iterFrom step (step it cur) (it + 1) n

/-- The per-round pipeline step of _call, with per-round oracle response
    families (the oracle may answer differently every round). -/
def forwardsStep (mresp : ℕ → MergeResp) (sresp : ℕ → SplitResp)
    (sub : ℕ → List ℕ → ℕ → List ℕ) (docs : List Doc)
    (csim : List ℚ → List ℚ → ℚ) (emb : ℕ → List ℚ) (minSize : ℕ)
    (it : ℕ) (d : ClusterDict) : ClusterDict :=
  singlePassMergeSplits (mresp it) (sresp it) (sub it) docs csim emb minSize d

/-! ## Top-down strategy (BackwardsFeatureAgent)

The summarize/propose/refine stages only manufacture the list of feature
name strings; the claims below concern what happens from that list on, so
the embedding takes the proposed feature names as input and covers
_assign_docs_to_feature, _attempt_llm_feature_merges, _merge_tiny_clusters
and the output assembly of _call.
-/

/-- BackwardsFeatureAgent._build_cluster_summaries: at most 10 documents,
    200 characters each. -/
def buildClusterSummariesB (docs : List Doc) (idxs : List ℕ) : String :=
  String.intercalate "\n"
    ((idxs.take 10).map (fun i => (docs.getD i defaultDoc).page_content.take 200))

/-- Stable insertion into a weakly descending list: the new element goes
    in front of the first element whose score does not exceed it. -/
def insDesc (p : ℕ × ℚ) : List (ℕ × ℚ) → List (ℕ × ℚ)
  | [] => [p]
  | q :: rest => if q.2 ≤ p.2 then p :: q :: rest else q :: insDesc p rest

/-- Stable descending sort by score.  Python list.sort(key, reverse=True)
    is stable, and a stable sort into weakly descending score order is a
    uniquely determined list, so this insertion sort computes exactly the
    list the source obtains from Timsort. -/
def sortDesc (l : List (ℕ × ℚ)) : List (ℕ × ℚ) := l.foldr insDesc []

/-- BackwardsFeatureAgent._assign_docs_to_feature over n documents: pair
    every index with its cosine score against the embedded feature name
    (the external embedding and sklearn call are abstracted into score),
    sort descending, keep the first top_k, and of those keep the indices
    whose score is at least min_sim_threshold (source: sc >= threshold).
    The source defaults are top_k = 10 and min_sim_threshold = 0.3. -/
def assignDocsToFeature (n : ℕ) (score : ℕ → ℚ) (topK : ℕ) (minSim : ℚ) : List ℕ :=
  let results := (List.range n).map (fun i => (i, score i))
  let sorted := sortDesc results
  ((sorted.take topK).filter (fun p => minSim ≤ p.2)).map Prod.fst

/-- Response text of the backwards merge oracle as a function of the
    prompt fields (feature_a, feature_b, summaries_a, summaries_b). -/
abbrev FeatMergeResp := String → String → String → String → String

/-- Inner while loop of _attempt_llm_feature_merges; unlike the forwards
    pass it first skips pairs whose key is already gone. -/
def featInner (mresp : FeatMergeResp) (docs : List Doc) :
    ℕ → ClusterDict → List String → ℕ → ℕ → ClusterDict × List String
  | 0, m, names, _, _ => (m, names)
  | fuel + 1, m, names, i, j =>
    if j < names.length then
      let fA := names.getD i ""
      let fB := names.getD j ""
      if lookupCD m fA = none ∨ lookupCD m fB = none then
        featInner mresp docs fuel m names i (j + 1)
      else
        if mergeDecision
            (mresp fA fB (buildClusterSummariesB docs (getCD m fA))
              (buildClusterSummariesB docs (getCD m fB))) then
          featInner mresp docs fuel
            (popCD (setCD m fA (getCD m fA ++ getCD m fB)) fB) (names.eraseIdx j) i j
        else featInner mresp docs fuel m names i (j + 1)
    else (m, names)

/-- Outer while loop of _attempt_llm_feature_merges. -/
def featOuter (mresp : FeatMergeResp) (docs : List Doc) :
    ℕ → ClusterDict → List String → ℕ → ClusterDict
  | 0, m, _, _ => m
  | fuel + 1, m, names, i =>
    if i < names.length then
      let r := featInner mresp docs names.length m names i (i + 1)
      if r.2.length < names.length then featOuter mresp docs fuel r.1 r.2 i
      else featOuter mresp docs fuel r.1 r.2 (i + 1)
    else m

/-- BackwardsFeatureAgent._attempt_llm_feature_merges. -/
def attemptFeatureMerges (mresp : FeatMergeResp) (docs : List Doc)
    (m : ClusterDict) : ClusterDict :=
  featOuter mresp docs (2 * (keysCD m).length + 1) m (keysCD m) 0

/-- Centroid of _merge_tiny_clusters: None for an empty member list. -/
def centroidOpt (emb : ℕ → List ℚ) (idxs : List ℕ) : Option (List ℚ) :=
  if idxs = [] then none else some (centroid emb idxs)

/-- Target scan of _merge_tiny_clusters: like the forwards scan but also
    skipping features whose stored centroid is None. -/
def tinyBestGo (csim : List ℚ → List ℚ → ℚ) (cent : String → Option (List ℚ))
    (m : ClusterDict) (fname : String) (c1 : List ℚ) :
    List String → Option String → ℚ → Option String
  | [], best, _ => best
  | other :: rest, best, bestSim =>
    if other = fname ∨ lookupCD m other = none then
      tinyBestGo csim cent m fname c1 rest best bestSim
    else
      match cent other with
      | none => tinyBestGo csim cent m fname c1 rest best bestSim
      | some c2 =>
        let s := csim c1 c2
        if bestSim < s then tinyBestGo csim cent m fname c1 rest (some other) s
        else tinyBestGo csim cent m fname c1 rest best bestSim

/-- Body of one iteration of the _merge_tiny_clusters loop: only
    surviving features that are undersized but nonempty are merged away;
    a nonempty feature with a None centroid would be dropped (that branch
    is unreachable because a nonempty member list always has a
    centroid). -/
def tinyStep (csim : List ℚ → List ℚ → ℚ) (emb : ℕ → List ℚ) (minSize : ℕ)
    (snapshot : List String) (m : ClusterDict) (cent : String → Option (List ℚ))
    (fname : String) : ClusterDict × (String → Option (List ℚ)) :=
  match lookupCD m fname with
  | none => (m, cent)
  | some idxs =>
    if idxs.length < minSize ∧ 0 < idxs.length then
      match cent fname with
      | none => (popCD m fname, cent)
      | some c1 =>
        match tinyBestGo csim cent m fname c1 snapshot none (-999) with
        | none => (m, cent)
        | some tgt =>
          let merged := getCD m tgt ++ idxs
          (popCD (setCD m tgt merged) fname,
            fun n => if n = tgt then some (centroid emb merged) else cent n)
    else (m, cent)

/-- Main loop of _merge_tiny_clusters over the snapshot of names. -/
def mergeTinyGo (csim : List ℚ → List ℚ → ℚ) (emb : ℕ → List ℚ) (minSize : ℕ)
    (snapshot : List String) :
    ClusterDict → (String → Option (List ℚ)) → List String → ClusterDict
  | m, _, [] => m
  | m, cent, fname :: rest =>
    let r := tinyStep csim emb minSize snapshot m cent fname
    mergeTinyGo csim emb minSize snapshot r.1 r.2 rest

/-- BackwardsFeatureAgent._merge_tiny_clusters. -/
def mergeTinyClusters (csim : List ℚ → List ℚ → ℚ) (emb : ℕ → List ℚ)
    (minSize : ℕ) (m : ClusterDict) : ClusterDict :=
  mergeTinyGo csim emb minSize (keysCD m) m
    (fun f =>
      match lookupCD m f with
      | none => none
      | some idxs => centroidOpt emb idxs)
    (keysCD m)

/-- Output rendering of both agents: method name if present, else file
    path, else the synthetic doc_i placeholder. -/
def renderLabel (docs : List Doc) (idx : ℕ) : String :=
  let d := docs.getD idx defaultDoc
  if d.method_name ≠ "" then d.method_name
  else if d.file_path ≠ "" then d.file_path
  else "doc_" ++ Nat.repr idx

/-- Initial feature assignment loop of BackwardsFeatureAgent._call:
    initial_map[fname] = assigned indices, in feature-name order (a
    duplicate proposed name overwrites its earlier entry, as in Python). -/
def backwardsInitialMap (featureNames : List String) (n : ℕ)
    (scoreOf : String → ℕ → ℚ) (topK : ℕ) (minSim : ℚ) : ClusterDict :=
  featureNames.foldl
    (fun m f => setCD m f (assignDocsToFeature n (scoreOf f) topK minSim)) []

/-- Index-level final map of BackwardsFeatureAgent._call:
    merge duplicate features, then fold tiny ones. -/
def backwardsFinalMap (featureNames : List String) (n : ℕ)
    (scoreOf : String → ℕ → ℚ) (topK : ℕ) (minSim : ℚ)
    (mresp : FeatMergeResp) (docs : List Doc)
    (csim : List ℚ → List ℚ → ℚ) (emb : ℕ → List ℚ) (minSize : ℕ) : ClusterDict :=
  mergeTinyClusters csim emb minSize
    (attemptFeatureMerges mresp docs
      (backwardsInitialMap featureNames n scoreOf topK minSim))

/-- Rendered FeatureMap returned by BackwardsFeatureAgent._call. -/
def backwardsFeatureDict (featureNames : List String) (n : ℕ)
    (scoreOf : String → ℕ → ℚ) (topK : ℕ) (minSim : ℚ)
    (mresp : FeatMergeResp) (docs : List Doc)
    (csim : List ℚ → List ℚ → ℚ) (emb : ℕ → List ℚ) (minSize : ℕ) :
    List (String × List String) :=
  (backwardsFinalMap featureNames n scoreOf topK minSim mresp docs csim emb minSize).map
    (fun p => (p.1, p.2.map (renderLabel docs)))

/-! ## Lemmas about the merge pass -/

theorem lookupCD_getCD {d : ClusterDict} {k : String} (h : k ∈ keysCD d) :
    lookupCD d k = some (getCD d k) := by
  have := lookupCD_mem_keys.1 h
  cases hl : lookupCD d k with
  | none => rw [hl] at this; simp at this
  | some v => simp [getCD, hl]

theorem erase_eq_eraseIdx {l : List String} {j : ℕ} (h : j < l.length) (hn : l.Nodup) :
    l.erase (l.get ⟨j, h⟩) = l.eraseIdx j := by
  induction l generalizing j with
  | nil => simp at h
  | cons a t ih =>
    cases j with
    | zero => simp [List.get, List.erase_cons_head, List.eraseIdx]
    | succ j =>
      have hj : j < t.length := by simpa using h
      have hne : a ≠ t.get ⟨j, hj⟩ := by
        intro he
        exact (List.nodup_cons.1 hn).1 (he ▸ List.get_mem t j hj)
      have hget : (a :: t).get ⟨j + 1, h⟩ = t.get ⟨j, hj⟩ := rfl
      rw [hget, List.erase_cons_tail (by simpa using hne), List.eraseIdx,
        ih hj (List.nodup_cons.1 hn).2]

/-- One absorbing step of the merge loops preserves keys-name sync,
    well-formedness and the member multiset. -/
theorem mergeStep_facts {d : ClusterDict} {names : List String} {i j : ℕ}
    (hsync : keysCD d = names) (hwf : WFCD d)
    (hi : i < names.length) (hj : j < names.length) (hij : i ≠ j) :
    keysCD (popCD (setCD d (names.getD i "")
        (getCD d (names.getD i "") ++ getCD d (names.getD j ""))) (names.getD j ""))
      = names.eraseIdx j ∧
    WFCD (popCD (setCD d (names.getD i "")
        (getCD d (names.getD i "") ++ getCD d (names.getD j ""))) (names.getD j "")) ∧
    membersCD (popCD (setCD d (names.getD i "")
        (getCD d (names.getD i "") ++ getCD d (names.getD j ""))) (names.getD j ""))
      = membersCD d := by
  have hnd : names.Nodup := hsync ▸ hwf
  set cA := names.getD i "" with hcA
  set cB := names.getD j "" with hcB
  have hgi : cA = names.get ⟨i, hi⟩ := List.getD_eq_get names "" hi
  have hgj : cB = names.get ⟨j, hj⟩ := List.getD_eq_get names "" hj
  have hAB : cA ≠ cB := by
    rw [hgi, hgj]
    intro he
    exact hij (by simpa using hnd.get_inj_iff.1 he)
  have hAmem : cA ∈ keysCD d := by
    rw [hsync, hgi]; exact List.get_mem _ _ _
  have hBmem : cB ∈ keysCD d := by
    rw [hsync, hgj]; exact List.get_mem _ _ _
  have hlkA : lookupCD d cA = some (getCD d cA) := lookupCD_getCD hAmem
  have hlkB : lookupCD d cB = some (getCD d cB) := lookupCD_getCD hBmem
  set d1 := setCD d cA (getCD d cA ++ getCD d cB) with hd1
  have hk1 : keysCD d1 = keysCD d := keysCD_setCD_mem _ hAmem
  have hwf1 : WFCD d1 := WFCD_setCD_mem _ hwf hAmem
  have hlkB1 : lookupCD d1 cB = some (getCD d cB) := by
    rw [hd1, lookupCD_setCD_ne _ hAB, hlkB]
  refine ⟨?_, WFCD_popCD _ hwf1, ?_⟩
  · rw [keysCD_popCD, hk1, hsync, hgj]
    exact erase_eq_eraseIdx hj hnd
  · have hm1 : membersCD d1 + ↑(getCD d cA) = membersCD d + ↑(getCD d cA ++ getCD d cB) :=
      membersCD_setCD _ hlkA
    have hm2 : membersCD (popCD d1 cB) + ↑(getCD d cB) = membersCD d1 :=
      membersCD_popCD hlkB1
    have hcoe : (↑(getCD d cA ++ getCD d cB) : Multiset ℕ)
        = ↑(getCD d cA) + ↑(getCD d cB) := by
      rw [← Multiset.coe_add]
    rw [hcoe] at hm1
    have h3 : membersCD (popCD d1 cB) + (↑(getCD d cA) + ↑(getCD d cB)) =
        membersCD d + (↑(getCD d cA) + ↑(getCD d cB)) := by
      calc membersCD (popCD d1 cB) + (↑(getCD d cA) + ↑(getCD d cB))
          = membersCD (popCD d1 cB) + ↑(getCD d cB) + ↑(getCD d cA) := by abel
        _ = membersCD d1 + ↑(getCD d cA) := by rw [hm2]
        _ = membersCD d + (↑(getCD d cA) + ↑(getCD d cB)) := hm1
    exact add_right_cancel h3

/-- Invariant carried by both merge loops: keys stay in sync with the
    scanned name list, keys stay unique, the member multiset is unchanged,
    and the name list only loses elements. -/
def MergeInv (d0 : ClusterDict) (names0 : List String)
    (r : ClusterDict × List String) : Prop :=
  keysCD r.1 = r.2 ∧ WFCD r.1 ∧ membersCD r.1 = membersCD d0 ∧
    r.2.length ≤ names0.length ∧ r.2.Sublist names0

theorem mergeInner_facts (mresp : MergeResp) (docs : List Doc) (fuel : ℕ) :
    ∀ (d : ClusterDict) (names : List String) (i j : ℕ),
      keysCD d = names → WFCD d → i < j →
      MergeInv d names (mergeInner mresp docs fuel d names i j) := by
  induction fuel with
  | zero =>
    intro d names i j hsync hwf _
    exact ⟨hsync, hwf, rfl, le_refl _, List.Sublist.refl _⟩
  | succ fuel ih =>
    intro d names i j hsync hwf hij
    simp only [mergeInner]
    by_cases hjlen : j < names.length
    · simp only [if_pos hjlen]
      by_cases hsays : llmSaysMerge mresp docs (names.getD i "")
          (getCD d (names.getD i "")) (names.getD j "") (getCD d (names.getD j "")) = true
      · rw [if_pos hsays]
        have hi : i < names.length := Nat.lt_trans hij hjlen
        obtain ⟨hk, hw, hm⟩ := mergeStep_facts hsync hwf hi hjlen (Nat.ne_of_lt hij)
        obtain ⟨k1, w1, m1, l1, s1⟩ := ih _ _ i j hk hw hij
        refine ⟨k1, w1, by rw [m1, hm], ?_, ?_⟩
        · calc _ ≤ (names.eraseIdx j).length := l1
            _ ≤ names.length := (List.eraseIdx_sublist names j).length_le
        · exact s1.trans (List.eraseIdx_sublist names j)
      · rw [if_neg hsays]
        exact ih _ _ i (j + 1) hsync hwf (Nat.lt_succ_of_lt hij)
    · simp only [if_neg hjlen]
      exact ⟨hsync, hwf, rfl, le_refl _, List.Sublist.refl _⟩

theorem mergeOuter_facts (mresp : MergeResp) (docs : List Doc) (fuel : ℕ) :
    ∀ (d : ClusterDict) (names : List String) (i : ℕ),
      keysCD d = names → WFCD d →
      keysCD (mergeOuter mresp docs fuel d names i) ⊆ names ∧
      WFCD (mergeOuter mresp docs fuel d names i) ∧
      membersCD (mergeOuter mresp docs fuel d names i) = membersCD d := by
  induction fuel with
  | zero =>
    intro d names i hsync hwf
    simp only [mergeOuter]
    refine ⟨?_, hwf, trivial⟩
    intro a ha
    rwa [hsync] at ha
  | succ fuel ih =>
    intro d names i hsync hwf
    simp only [mergeOuter]
    by_cases hilen : i < names.length
    · simp only [if_pos hilen]
      obtain ⟨k1, w1, m1, l1, s1⟩ :=
        mergeInner_facts mresp docs names.length d names i (i + 1) hsync hwf (Nat.lt_succ_self i)
      set r := mergeInner mresp docs names.length d names i (i + 1) with hr
      by_cases hlt : r.2.length < names.length
      · rw [if_pos hlt]
        obtain ⟨hsub, hw, hm⟩ := ih r.1 r.2 i k1 w1
        exact ⟨fun a ha => s1.subset (hsub ha), hw, by rw [hm, m1]⟩
      · rw [if_neg hlt]
        obtain ⟨hsub, hw, hm⟩ := ih r.1 r.2 (i + 1) k1 w1
        exact ⟨fun a ha => s1.subset (hsub ha), hw, by rw [hm, m1]⟩
    · simp only [if_neg hilen]
      refine ⟨?_, hwf, trivial⟩
      intro a ha
      rwa [hsync] at ha

/-- The merge pass preserves the member multiset, key uniqueness, and
    introduces no new cluster names. -/
theorem attemptMerges_facts (mresp : MergeResp) (docs : List Doc)
    (d : ClusterDict) (hwf : WFCD d) :
    membersCD (attemptMerges mresp docs d) = membersCD d ∧
    WFCD (attemptMerges mresp docs d) ∧
    keysCD (attemptMerges mresp docs d) ⊆ keysCD d := by
  obtain ⟨hsub, hw, hm⟩ :=
    mergeOuter_facts mresp docs (2 * (keysCD d).length + 1) d (keysCD d) 0 rfl hwf
  exact ⟨hm, hw, hsub⟩

/-! ## Lemmas about the split pass -/

theorem keysCD_append (d1 d2 : ClusterDict) :
    keysCD (d1 ++ d2) = keysCD d1 ++ keysCD d2 := by
  simp [keysCD]

theorem membersCD_append2 (d1 d2 : ClusterDict) :
    membersCD (d1 ++ d2) = membersCD d1 + membersCD d2 := by
  simp [membersCD]

theorem lookupCD_append (d1 d2 : ClusterDict) (k : String) :
    lookupCD (d1 ++ d2) k =
      match lookupCD d1 k with
      | some v => some v
      | none => lookupCD d2 k := by
  induction d1 with
  | nil => simp [lookupCD]
  | cons p rest ih =>
    obtain ⟨k', v'⟩ := p
    by_cases he : k' = k <;> simp [lookupCD, he, ih]

theorem selectLbl_nil (labels : List ℕ) (s : ℕ) : selectLbl [] labels s = [] := by
  simp [selectLbl]

theorem selectLbl_cons (a l : ℕ) (dis ls : List ℕ) (s : ℕ) :
    selectLbl (a :: dis) (l :: ls) s =
      if l = s then a :: selectLbl dis ls s else selectLbl dis ls s := by
  by_cases h : l = s <;> simp [selectLbl, h]

theorem sum_map_ite_cons (L : List ℕ) (hnd : L.Nodup) (l : ℕ) (hl : l ∈ L)
    (a : ℕ) (g : ℕ → Multiset ℕ) :
    (L.map (fun s => if l = s then a ::ₘ g s else g s)).sum
      = a ::ₘ (L.map g).sum := by
  induction L with
  | nil => simp at hl
  | cons b t ih =>
    rcases List.mem_cons.1 hl with hb | hb
    · subst hb
      have hrest : ∀ s ∈ t, (if l = s then a ::ₘ g s else g s) = g s := by
        intro s hs
        have : l ≠ s := fun he => (List.nodup_cons.1 hnd).1 (he ▸ hs)
        simp [this]
      simp only [List.map_cons, List.sum_cons,
        List.map_congr_left hrest]
      simp [Multiset.cons_add]
    · have hlb : l ≠ b := fun he => (List.nodup_cons.1 hnd).1 (he ▸ hb)
      simp only [List.map_cons, List.sum_cons, if_neg hlb,
        ih (List.nodup_cons.1 hnd).2 hb]
      rw [← Multiset.singleton_add, ← Multiset.singleton_add]
      abel

/-- The sub-clusters produced by one split partition the member list:
    summing the per-label selections over labels 0 .. x-1 recovers the
    original member multiset, provided (as sklearn guarantees) one label
    per member and labels below x. -/
theorem selectLbl_partition (dis labels : List ℕ) (x : ℕ)
    (hlen : labels.length = dis.length) (hlab : ∀ l ∈ labels, l < x) :
    ((List.range x).map (fun s => (↑(selectLbl dis labels s) : Multiset ℕ))).sum
      = ↑dis := by
  induction dis generalizing labels with
  | nil => simp [selectLbl_nil]
  | cons a dis ih =>
    cases labels with
    | nil => simp at hlen
    | cons l ls =>
      have hlx : l < x := hlab l (List.mem_cons_self _ _)
      have hcong : ∀ s ∈ List.range x,
          (↑(selectLbl (a :: dis) (l :: ls) s) : Multiset ℕ) =
            (if l = s then a ::ₘ (↑(selectLbl dis ls s) : Multiset ℕ)
              else ↑(selectLbl dis ls s)) := by
        intro s _
        rw [selectLbl_cons]
        by_cases h : l = s <;> simp [h]
      rw [List.map_congr_left hcong,
        sum_map_ite_cons (List.range x) (List.nodup_range x) l (List.mem_range.2 hlx) a _,
        ih ls (by simpa using hlen) (fun t ht => hlab t (List.mem_cons_of_mem _ ht))]
      rfl

/-- Freedom of the generated sub-cluster names: no key of the state is a
    sub-name of any key of the state.  This holds for every state the
    pipeline actually builds (initial names are Cluster_i, merges and the
    normalizer only remove names, and a split trades a parent for its
    freshly suffixed children) and is what makes the in-place
    new_dict[sub_name] assignments collision free. -/
def NamesOk (d : ClusterDict) : Prop :=
  ∀ c ∈ keysCD d, ∀ k ∈ keysCD d, ∀ n : ℕ, k ≠ subNameStr c n

theorem foldSet_fresh (cname : String) (dis labels : List ℕ) :
    ∀ (S : List ℕ) (d : ClusterDict),
      (∀ s ∈ S, subNameStr cname (s + 1) ∉ keysCD d) → S.Nodup →
      S.foldl (fun acc s => setCD acc (subNameStr cname (s + 1)) (selectLbl dis labels s)) d
        = d ++ S.map (fun s => (subNameStr cname (s + 1), selectLbl dis labels s)) := by
  intro S
  induction S with
  | nil => intro d _ _; simp
  | cons s t ih =>
    intro d hfresh hnd
    have hs : subNameStr cname (s + 1) ∉ keysCD d :=
      hfresh s (List.mem_cons_self _ _)
    have hset : setCD d (subNameStr cname (s + 1)) (selectLbl dis labels s)
        = d ++ [(subNameStr cname (s + 1), selectLbl dis labels s)] :=
      setCD_fresh _ hs
    have hfresh' : ∀ s' ∈ t, subNameStr cname (s' + 1) ∉
        keysCD (d ++ [(subNameStr cname (s + 1), selectLbl dis labels s)]) := by
      intro s' hs'
      rw [keysCD_append]
      intro hmem
      rcases List.mem_append.1 hmem with h | h
      · exact hfresh s' (List.mem_cons_of_mem _ hs') h
      · simp [keysCD] at h
        obtain ⟨_, hss⟩ := subNameStr_inj h
        have hse : s' = s := by omega
        exact (List.nodup_cons.1 hnd).1 (hse ▸ hs')
    simp only [List.foldl_cons, hset]
    rw [ih _ hfresh' (List.nodup_cons.1 hnd).2, List.append_assoc]
    rfl

theorem lookupCD_subList (cname : String) (f : ℕ → List ℕ) :
    ∀ (T : List ℕ), T.Nodup → ∀ s ∈ T,
      lookupCD (T.map (fun t => (subNameStr cname (t + 1), f t))) (subNameStr cname (s + 1))
        = some (f s) := by
  intro T
  induction T with
  | nil => intro _ s hs; simp at hs
  | cons t0 T ih =>
    intro hnd s hs
    rcases List.mem_cons.1 hs with h | h
    · subst h
      simp [lookupCD]
    · have hne : subNameStr cname (t0 + 1) ≠ subNameStr cname (s + 1) := by
        intro he
        obtain ⟨_, hv⟩ := subNameStr_inj he
        have : t0 = s := by omega
        exact (List.nodup_cons.1 hnd).1 (this ▸ h)
      simp only [List.map_cons, lookupCD, if_neg hne]
      exact ih (List.nodup_cons.1 hnd).2 s h

theorem subList_nodup (cname : String) (x : ℕ) :
    ((List.range x).map (fun s => subNameStr cname (s + 1))).Nodup := by
  refine List.Nodup.map ?_ (List.nodup_range x)
  intro a b hab
  obtain ⟨_, h⟩ := subNameStr_inj hab
  omega

theorem splitApply_facts {d : ClusterDict} {cname : String} {dis labels : List ℕ} {x : ℕ}
    (hwf : WFCD d) (hlk : lookupCD d cname = some dis)
    (hfresh : ∀ n : ℕ, subNameStr cname n ∉ keysCD d)
    (hlen : labels.length = dis.length) (hlab : ∀ l ∈ labels, l < x) :
    membersCD (splitApply d cname dis labels x) = membersCD d ∧
    WFCD (splitApply d cname dis labels x) ∧
    keysCD (splitApply d cname dis labels x)
      = (keysCD d).erase cname ++ (List.range x).map (fun s => subNameStr cname (s + 1)) ∧
    lookupCD (splitApply d cname dis labels x) cname = none ∧
    (∀ k, k ≠ cname → (∀ n : ℕ, k ≠ subNameStr cname n) →
      lookupCD (splitApply d cname dis labels x) k = lookupCD d k) ∧
    (∀ s ∈ List.range x,
      lookupCD (splitApply d cname dis labels x) (subNameStr cname (s + 1))
        = some (selectLbl dis labels s)) := by
  have hcmem : cname ∈ keysCD d := List.mem_map.2 ⟨(cname, dis), mem_of_lookupCD hlk, rfl⟩
  set L := (List.range x).map (fun s => (subNameStr cname (s + 1), selectLbl dis labels s))
    with hL
  have hfold : splitApply d cname dis labels x = popCD (d ++ L) cname := by
    unfold splitApply
    rw [foldSet_fresh cname dis labels (List.range x) d
      (fun s _ => hfresh (s + 1)) (List.nodup_range x)]
  have hkeysL : keysCD L = (List.range x).map (fun s => subNameStr cname (s + 1)) := by
    rw [hL]
    simp [keysCD, Function.comp]
  have hdisj : (keysCD d).Disjoint (keysCD L) := by
    rw [List.disjoint_left]
    intro a ha hb
    rw [hkeysL] at hb
    obtain ⟨s, _, hs⟩ := List.mem_map.1 hb
    exact hfresh (s + 1) (hs ▸ ha)
  have hwfdL : WFCD (d ++ L) := by
    rw [WFCD, keysCD_append]
    exact List.Nodup.append hwf (hkeysL ▸ subList_nodup cname x) hdisj
  have hlkdL : lookupCD (d ++ L) cname = some dis := by
    rw [lookupCD_append, hlk]
  have hmemL : membersCD L = ↑dis := by
    rw [hL]
    have : membersCD ((List.range x).map
        (fun s => (subNameStr cname (s + 1), selectLbl dis labels s)))
        = ((List.range x).map (fun s => (↑(selectLbl dis labels s) : Multiset ℕ))).sum := by
      simp only [membersCD, List.map_map]
      rfl
    rw [this]
    exact selectLbl_partition dis labels x hlen hlab
  refine ⟨?_, ?_, ?_, ?_, ?_, ?_⟩
  · rw [hfold]
    have h1 : membersCD (popCD (d ++ L) cname) + ↑dis = membersCD (d ++ L) :=
      membersCD_popCD hlkdL
    rw [membersCD_append2, hmemL] at h1
    exact add_right_cancel h1
  · rw [hfold]
    exact WFCD_popCD _ hwfdL
  · rw [hfold, keysCD_popCD, keysCD_append, List.erase_append_left _ hcmem, hkeysL]
  · rw [hfold]
    exact lookupCD_popCD_self hwfdL
  · intro k hk hks
    rw [hfold, lookupCD_popCD_ne (fun he => hk he.symm), lookupCD_append]
    cases hdk : lookupCD d k with
    | some v => rfl
    | none =>
      have : k ∉ keysCD L := by
        rw [hkeysL]
        intro hmem
        obtain ⟨s, _, hs⟩ := List.mem_map.1 hmem
        exact hks (s + 1) hs.symm
      rw [lookupCD_eq_none.2 this]
  · intro s hs
    have hnecn : cname ≠ subNameStr cname (s + 1) :=
      fun he => absurd (congrArg String.length he)
        (by have := length_lt_subNameStr cname (s + 1); omega)
    rw [hfold, lookupCD_popCD_ne hnecn, lookupCD_append]
    have : lookupCD d (subNameStr cname (s + 1)) = none :=
      lookupCD_eq_none.2 (hfresh (s + 1))
    rw [this]
    exact lookupCD_subList cname _ (List.range x) (List.nodup_range x) s hs

/-- Case analysis of one split-loop iteration: either the state is left
    untouched, or the oracle produced a well-formed directive
    "split into X" with X above 1 and the cluster is split. -/
theorem splitStep_cases (sresp : SplitResp) (sub : List ℕ → ℕ → List ℕ)
    (docs : List Doc) (d : ClusterDict) (cname : String) :
    splitStep sresp sub docs d cname = d ∨
    ∃ dis xz, lookupCD d cname = some dis ∧
      llmSaysSplit (sresp cname (buildClusterSummary docs dis)) = some xz ∧ 1 < xz ∧
      splitStep sresp sub docs d cname
        = splitApply d cname dis (sub dis xz.toNat) xz.toNat := by
  have hdec : ∀ (dis : List ℕ) (o : Option ℤ),
      splitDecide d cname dis (sub dis) o = d ∨
      ∃ xz, o = some xz ∧ 1 < xz ∧
        splitDecide d cname dis (sub dis) o
          = splitApply d cname dis (sub dis xz.toNat) xz.toNat := by
    intro dis o
    cases o with
    | none => exact Or.inl rfl
    | some xz =>
      by_cases hx : 1 < xz
      · simp only [splitDecide, if_pos hx]
        exact Or.inr ⟨xz, rfl, hx, by simp only [splitDecide, if_pos hx]⟩
      · simp only [splitDecide, if_neg hx]
        exact Or.inl trivial
  unfold splitStep
  cases hlk : lookupCD d cname with
  | none => exact Or.inl rfl
  | some dis =>
    rcases hdec dis (llmSaysSplit (sresp cname (buildClusterSummary docs dis)))
      with h | ⟨xz, ho, hx, h⟩
    · exact Or.inl h
    · exact Or.inr ⟨dis, xz, rfl, ho, hx, h⟩

/-- Invariant preservation and member conservation for the split loop. -/
theorem splitsGo_facts (sresp : SplitResp) (sub : List ℕ → ℕ → List ℕ) (docs : List Doc)
    (hsub : ∀ dis k, 2 ≤ k → (sub dis k).length = dis.length ∧ ∀ l ∈ sub dis k, l < k) :
    ∀ (pending : List String) (d : ClusterDict),
      WFCD d → pending.Nodup →
      (∀ b ∈ pending, ∀ k ∈ keysCD d, ∀ n : ℕ, k ≠ subNameStr b n) →
      membersCD (splitsGo sresp sub docs d pending) = membersCD d ∧
      WFCD (splitsGo sresp sub docs d pending) := by
  intro pending
  induction pending with
  | nil =>
    intro d hwf _ _
    exact ⟨rfl, hwf⟩
  | cons cname rest ih =>
    intro d hwf hnd hinv
    simp only [splitsGo]
    rcases splitStep_cases sresp sub docs d cname with hstep | ⟨dis, xz, hlk, _, hx, hstep⟩
    · rw [hstep]
      exact ih d hwf (List.nodup_cons.1 hnd).2
        (fun b hb => hinv b (List.mem_cons_of_mem _ hb))
    · rw [hstep]
      have hx2 : 2 ≤ xz.toNat := by omega
      obtain ⟨hlen, hlab⟩ := hsub dis xz.toNat hx2
      have hfresh : ∀ n : ℕ, subNameStr cname n ∉ keysCD d := by
        intro n hmem
        exact hinv cname (List.mem_cons_self _ _) _ hmem n rfl
      obtain ⟨hm, hw, hkeys, _, _, _⟩ :=
        splitApply_facts hwf hlk hfresh hlen hlab
      have hinv' : ∀ b ∈ rest, ∀ k ∈ keysCD (splitApply d cname dis
          (sub dis xz.toNat) xz.toNat), ∀ n : ℕ, k ≠ subNameStr b n := by
        intro b hb k hk n
        rw [hkeys] at hk
        rcases List.mem_append.1 hk with h | h
        · exact hinv b (List.mem_cons_of_mem _ hb) k (List.erase_subset _ _ h) n
        · obtain ⟨s, _, hsk⟩ := List.mem_map.1 h
          intro he
          obtain ⟨hc, _⟩ := subNameStr_inj (hsk ▸ he)
          exact (List.nodup_cons.1 hnd).1 (hc ▸ hb)
      obtain ⟨hm2, hw2⟩ := ih _ hw (List.nodup_cons.1 hnd).2 hinv'
      exact ⟨by rw [hm2, hm], hw2⟩

/-- One split-loop iteration preserves well-formedness, the freshness
    invariant for the names still to be processed, and the members. -/
theorem splitStep_inv (sresp : SplitResp) (sub : List ℕ → ℕ → List ℕ) (docs : List Doc)
    (hsub : ∀ dis k, 2 ≤ k → (sub dis k).length = dis.length ∧ ∀ l ∈ sub dis k, l < k)
    (d : ClusterDict) (cname : String) (rest : List String)
    (hwf : WFCD d)
    (hfr : ∀ k ∈ keysCD d, ∀ n : ℕ, k ≠ subNameStr cname n)
    (hinvrest : ∀ b ∈ rest, ∀ k ∈ keysCD d, ∀ n : ℕ, k ≠ subNameStr b n)
    (hne : cname ∉ rest) :
    WFCD (splitStep sresp sub docs d cname) ∧
    (∀ b ∈ rest, ∀ k ∈ keysCD (splitStep sresp sub docs d cname), ∀ n : ℕ,
      k ≠ subNameStr b n) ∧
    membersCD (splitStep sresp sub docs d cname) = membersCD d := by
  rcases splitStep_cases sresp sub docs d cname with hstep | ⟨dis, xz, hlk, _, hx, hstep⟩
  · rw [hstep]
    exact ⟨hwf, hinvrest, rfl⟩
  · rw [hstep]
    have hx2 : 2 ≤ xz.toNat := by omega
    obtain ⟨hlen, hlab⟩ := hsub dis xz.toNat hx2
    have hfresh : ∀ n : ℕ, subNameStr cname n ∉ keysCD d :=
      fun n hmem => hfr _ hmem n rfl
    obtain ⟨hm, hw, hkeys, _, _, _⟩ := splitApply_facts hwf hlk hfresh hlen hlab
    refine ⟨hw, ?_, hm⟩
    intro b hb k hk n
    rw [hkeys] at hk
    rcases List.mem_append.1 hk with h | h
    · exact hinvrest b hb k (List.erase_subset _ _ h) n
    · obtain ⟨s, _, hsk⟩ := List.mem_map.1 h
      intro he
      obtain ⟨hc, _⟩ := subNameStr_inj (hsk ▸ he)
      exact hne (hc ▸ hb)

/-- A cluster name that is neither processed in the remaining pass nor
    producible as a sub-name by it keeps its exact lookup result. -/
theorem splitsGo_lookup_preserved (sresp : SplitResp) (sub : List ℕ → ℕ → List ℕ)
    (docs : List Doc)
    (hsub : ∀ dis k, 2 ≤ k → (sub dis k).length = dis.length ∧ ∀ l ∈ sub dis k, l < k) :
    ∀ (pending : List String) (d : ClusterDict),
      WFCD d → pending.Nodup →
      (∀ b ∈ pending, ∀ k ∈ keysCD d, ∀ n : ℕ, k ≠ subNameStr b n) →
      ∀ z, z ∉ pending → (∀ b ∈ pending, ∀ n : ℕ, z ≠ subNameStr b n) →
      lookupCD (splitsGo sresp sub docs d pending) z = lookupCD d z := by
  intro pending
  induction pending with
  | nil => intro d _ _ _ z _ _; rfl
  | cons cname rest ih =>
    intro d hwf hnd hinv z hz hzp
    simp only [splitsGo]
    have hfr : ∀ k ∈ keysCD d, ∀ n : ℕ, k ≠ subNameStr cname n :=
      fun k hk n => hinv cname (List.mem_cons_self _ _) k hk n
    obtain ⟨hw2, hinv2, _⟩ := splitStep_inv sresp sub docs hsub d cname rest hwf hfr
      (fun b hb => hinv b (List.mem_cons_of_mem _ hb))
      (fun hmem => (List.nodup_cons.1 hnd).1 hmem)
    have hstep_look : lookupCD (splitStep sresp sub docs d cname) z = lookupCD d z := by
      rcases splitStep_cases sresp sub docs d cname with hstep | ⟨dis, xz, hlk, _, hx, hstep⟩
      · rw [hstep]
      · rw [hstep]
        have hx2 : 2 ≤ xz.toNat := by omega
        obtain ⟨hlen, hlab⟩ := hsub dis xz.toNat hx2
        have hfresh : ∀ n : ℕ, subNameStr cname n ∉ keysCD d :=
          fun n hmem => hfr _ hmem n rfl
        obtain ⟨_, _, _, _, hpres, _⟩ := splitApply_facts hwf hlk hfresh hlen hlab
        exact hpres z (fun he => hz (he ▸ List.mem_cons_self _ _))
          (fun n => hzp cname (List.mem_cons_self _ _) n)
    rw [ih (splitStep sresp sub docs d cname) hw2 (List.nodup_cons.1 hnd).2 hinv2 z
      (fun hmem => hz (List.mem_cons_of_mem _ hmem))
      (fun b hb n => hzp b (List.mem_cons_of_mem _ hb) n), hstep_look]

theorem splitDecide_of_low {d : ClusterDict} {cname : String} {dis : List ℕ}
    {f : ℕ → List ℕ} :
    ∀ o : Option ℤ, (∀ xz : ℤ, o = some xz → xz ≤ 1) →
      splitDecide d cname dis f o = d := by
  intro o hno
  cases o with
  | none => rfl
  | some xz =>
    have := hno xz rfl
    simp only [splitDecide, if_neg (by omega : ¬(1 : ℤ) < xz)]

theorem splitDecide_of_high {d : ClusterDict} {cname : String} {dis : List ℕ}
    {f : ℕ → List ℕ} {xz : ℤ} (hx : 1 < xz) :
    splitDecide d cname dis f (some xz)
      = splitApply d cname dis (f xz.toNat) xz.toNat := by
  simp only [splitDecide, if_pos hx]

theorem splitStep_of_low {sresp : SplitResp} {sub : List ℕ → ℕ → List ℕ}
    {docs : List Doc} {d : ClusterDict} {cname : String} {mems : List ℕ}
    (hlk : lookupCD d cname = some mems)
    (hno : ∀ xz : ℤ,
      llmSaysSplit (sresp cname (buildClusterSummary docs mems)) = some xz → xz ≤ 1) :
    splitStep sresp sub docs d cname = d := by
  unfold splitStep
  rw [hlk]
  exact splitDecide_of_low _ hno

theorem splitStep_of_high {sresp : SplitResp} {sub : List ℕ → ℕ → List ℕ}
    {docs : List Doc} {d : ClusterDict} {cname : String} {mems : List ℕ} {xz : ℤ}
    (hlk : lookupCD d cname = some mems)
    (hsp : llmSaysSplit (sresp cname (buildClusterSummary docs mems)) = some xz)
    (hx : 1 < xz) :
    splitStep sresp sub docs d cname
      = splitApply d cname mems (sub mems xz.toNat) xz.toNat := by
  unfold splitStep
  rw [hlk]
  have h2 : splitDecide d cname mems (sub mems)
      (llmSaysSplit (sresp cname (buildClusterSummary docs mems)))
      = splitApply d cname mems (sub mems xz.toNat) xz.toNat := by
    rw [hsp]
    exact splitDecide_of_high hx
  exact h2

theorem splitStep_lookup_ne (sresp : SplitResp) (sub : List ℕ → ℕ → List ℕ)
    (docs : List Doc)
    (hsub : ∀ dis k, 2 ≤ k → (sub dis k).length = dis.length ∧ ∀ l ∈ sub dis k, l < k)
    (d : ClusterDict) (b z : String) (hwf : WFCD d)
    (hfr : ∀ k ∈ keysCD d, ∀ n : ℕ, k ≠ subNameStr b n)
    (hz1 : z ≠ b) (hz2 : ∀ n : ℕ, z ≠ subNameStr b n) :
    lookupCD (splitStep sresp sub docs d b) z = lookupCD d z := by
  rcases splitStep_cases sresp sub docs d b with hstep | ⟨dis, xz, hlk, _, hx, hstep⟩
  · rw [hstep]
  · rw [hstep]
    have hx2 : 2 ≤ xz.toNat := by omega
    obtain ⟨hlen, hlab⟩ := hsub dis xz.toNat hx2
    have hfresh : ∀ n : ℕ, subNameStr b n ∉ keysCD d :=
      fun n hmem => hfr _ hmem n rfl
    obtain ⟨_, _, _, _, hpres, _⟩ := splitApply_facts hwf hlk hfresh hlen hlab
    exact hpres z hz1 hz2

/-- What the split pass does to one scanned cluster: a response that is
    not a well-formed directive "split into X" with X above 1 leaves the
    cluster untouched; a well-formed one replaces it by its X sub-clusters
    and removes the original name. -/
theorem splitsGo_process (sresp : SplitResp) (sub : List ℕ → ℕ → List ℕ) (docs : List Doc)
    (hsub : ∀ dis k, 2 ≤ k → (sub dis k).length = dis.length ∧ ∀ l ∈ sub dis k, l < k) :
    ∀ (pending : List String) (d : ClusterDict),
      WFCD d → pending.Nodup →
      (∀ b ∈ pending, ∀ k ∈ keysCD d, ∀ n : ℕ, k ≠ subNameStr b n) →
      (∀ b ∈ pending, ∀ c ∈ pending, ∀ n : ℕ, b ≠ subNameStr c n) →
      ∀ cname mems, cname ∈ pending → lookupCD d cname = some mems →
      ((∀ xz : ℤ,
          llmSaysSplit (sresp cname (buildClusterSummary docs mems)) = some xz → xz ≤ 1) →
        lookupCD (splitsGo sresp sub docs d pending) cname = some mems) ∧
      (∀ xz : ℤ,
        llmSaysSplit (sresp cname (buildClusterSummary docs mems)) = some xz → 1 < xz →
        lookupCD (splitsGo sresp sub docs d pending) cname = none ∧
        ∀ s ∈ List.range xz.toNat,
          lookupCD (splitsGo sresp sub docs d pending) (subNameStr cname (s + 1))
            = some (selectLbl mems (sub mems xz.toNat) s)) := by
  intro pending
  induction pending with
  | nil => intro d _ _ _ _ cname mems hmem; simp at hmem
  | cons b rest ih =>
    intro d hwf hnd hinv hpp cname mems hmem hlk
    have hcmem : cname ∈ keysCD d :=
      List.mem_map.2 ⟨(cname, mems), mem_of_lookupCD hlk, rfl⟩
    have hfrb : ∀ k ∈ keysCD d, ∀ n : ℕ, k ≠ subNameStr b n :=
      fun k hk n => hinv b (List.mem_cons_self _ _) k hk n
    have hbrest : b ∉ rest := (List.nodup_cons.1 hnd).1
    obtain ⟨hw2, hinv2, _⟩ := splitStep_inv sresp sub docs hsub d b rest hwf hfrb
      (fun b' hb' => hinv b' (List.mem_cons_of_mem _ hb')) hbrest
    have hpp2 : ∀ b' ∈ rest, ∀ c ∈ rest, ∀ n : ℕ, b' ≠ subNameStr c n :=
      fun b' hb' c hc n => hpp b' (List.mem_cons_of_mem _ hb') c (List.mem_cons_of_mem _ hc) n
    simp only [splitsGo]
    by_cases hbc : b = cname
    · subst hbc
      have hbnotrest : b ∉ rest := hbrest
      have hprotect : ∀ b' ∈ rest, ∀ n : ℕ, b ≠ subNameStr b' n :=
        fun b' hb' n => hinv b' (List.mem_cons_of_mem _ hb') b hcmem n
      constructor
      · intro hno
        rw [splitStep_of_low hlk hno]
        rw [splitsGo_lookup_preserved sresp sub docs hsub rest d hwf
          (List.nodup_cons.1 hnd).2
          (fun b' hb' => hinv b' (List.mem_cons_of_mem _ hb')) b hbnotrest hprotect]
        exact hlk
      · intro xz hsp hx
        rw [splitStep_of_high hlk hsp hx]
        have hx2 : 2 ≤ xz.toNat := by omega
        obtain ⟨hlen, hlab⟩ := hsub mems xz.toNat hx2
        have hfresh : ∀ n : ℕ, subNameStr b n ∉ keysCD d :=
          fun n hmemk => hfrb _ hmemk n rfl
        obtain ⟨_, hwA, hkeysA, hnoneA, _, hsubA⟩ :=
          splitApply_facts hwf hlk hfresh hlen hlab
        set dA := splitApply d b mems (sub mems xz.toNat) xz.toNat with hdA
        have hinvA : ∀ b' ∈ rest, ∀ k ∈ keysCD dA, ∀ n : ℕ, k ≠ subNameStr b' n := by
          have := hinv2
          rwa [splitStep_of_high hlk hsp hx] at this
        constructor
        · rw [splitsGo_lookup_preserved sresp sub docs hsub rest dA hwA
            (List.nodup_cons.1 hnd).2 hinvA b hbnotrest hprotect]
          exact hnoneA
        · intro s hs
          have hsubnot : subNameStr b (s + 1) ∉ rest := by
            intro hmem2
            exact hpp (subNameStr b (s + 1)) (List.mem_cons_of_mem _ hmem2)
              b (List.mem_cons_self _ _) (s + 1) rfl
          have hsubprot : ∀ b' ∈ rest, ∀ n : ℕ, subNameStr b (s + 1) ≠ subNameStr b' n := by
            intro b' hb' n he
            obtain ⟨hc, _⟩ := subNameStr_inj he
            exact hbrest (hc ▸ hb')
          rw [splitsGo_lookup_preserved sresp sub docs hsub rest dA hwA
            (List.nodup_cons.1 hnd).2 hinvA _ hsubnot hsubprot]
          exact hsubA s hs
    · have hcrest : cname ∈ rest := by
        rcases List.mem_cons.1 hmem with h | h
        · exact absurd h.symm hbc
        · exact h
      have hlk2 : lookupCD (splitStep sresp sub docs d b) cname = some mems := by
        rw [splitStep_lookup_ne sresp sub docs hsub d b cname hwf hfrb
          (fun he => hbc he.symm)
          (fun n => hinv b (List.mem_cons_self _ _) cname hcmem n)]
        exact hlk
      exact ih (splitStep sresp sub docs d b) hw2 (List.nodup_cons.1 hnd).2 hinv2 hpp2
        cname mems hcrest hlk2

/-- The split pass preserves the member multiset and key uniqueness. -/
theorem attemptSplits_facts (sresp : SplitResp) (sub : List ℕ → ℕ → List ℕ)
    (docs : List Doc) (d : ClusterDict) (hwf : WFCD d) (hok : NamesOk d)
    (hsub : ∀ dis k, 2 ≤ k → (sub dis k).length = dis.length ∧ ∀ l ∈ sub dis k, l < k) :
    membersCD (attemptSplits sresp sub docs d) = membersCD d ∧
    WFCD (attemptSplits sresp sub docs d) :=
  splitsGo_facts sresp sub docs hsub (keysCD d) d hwf hwf
    (fun b hb k hk n => hok b hb k hk n)

/-! ## Lemmas about the size normalizer -/

theorem bestOtherGo_some (csim : List ℚ → List ℚ → ℚ) (cent : String → List ℚ)
    (d : ClusterDict) (cname : String) :
    ∀ (L : List String) (best : Option String) (bs : ℚ),
      (∀ t, best = some t → t ≠ cname ∧ lookupCD d t ≠ none) →
      ∀ t, bestOtherGo csim cent d cname L best bs = some t →
        t ≠ cname ∧ lookupCD d t ≠ none := by
  intro L
  induction L with
  | nil =>
    intro best bs hbest t ht
    exact hbest t ht
  | cons other rest ih =>
    intro best bs hbest t ht
    simp only [bestOtherGo] at ht
    by_cases hskip : other = cname ∨ lookupCD d other = none
    · rw [if_pos hskip] at ht
      exact ih best bs hbest t ht
    · rw [if_neg hskip] at ht
      push_neg at hskip
      by_cases hlt : bs < csim (cent cname) (cent other)
      · rw [if_pos hlt] at ht
        refine ih _ _ ?_ t ht
        intro t' ht'
        obtain rfl : other = t' := by injection ht'
        exact hskip
      · rw [if_neg hlt] at ht
        exact ih best bs hbest t ht

theorem bestOtherGo_isSome (csim : List ℚ → List ℚ → ℚ) (cent : String → List ℚ)
    (d : ClusterDict) (cname : String) :
    ∀ (L : List String) (t : String) (bs : ℚ),
      (bestOtherGo csim cent d cname L (some t) bs).isSome = true := by
  intro L
  induction L with
  | nil => intro t bs; rfl
  | cons other rest ih =>
    intro t bs
    simp only [bestOtherGo]
    by_cases hskip : other = cname ∨ lookupCD d other = none
    · rw [if_pos hskip]
      exact ih t bs
    · rw [if_neg hskip]
      by_cases hlt : bs < csim (cent cname) (cent other)
      · rw [if_pos hlt]
        exact ih other _
      · rw [if_neg hlt]
        exact ih t bs

/-- With cosine similarities in their real range, the scan fails to find
    a target only when every other snapshot name is gone from the state. -/
theorem bestOtherGo_none (csim : List ℚ → List ℚ → ℚ) (cent : String → List ℚ)
    (d : ClusterDict) (cname : String) (hcs : ∀ u v, -1 ≤ csim u v) :
    ∀ (L : List String),
      bestOtherGo csim cent d cname L none (-999) = none →
      ∀ other ∈ L, other = cname ∨ lookupCD d other = none := by
  intro L
  induction L with
  | nil => intro _ other h; simp at h
  | cons o rest ih =>
    intro hres other hmem
    simp only [bestOtherGo] at hres
    by_cases hskip : o = cname ∨ lookupCD d o = none
    · rw [if_pos hskip] at hres
      rcases List.mem_cons.1 hmem with h | h
      · exact h ▸ hskip
      · exact ih hres other h
    · rw [if_neg hskip] at hres
      have hlt : (-999 : ℚ) < csim (cent cname) (cent o) :=
        lt_of_lt_of_le (by norm_num) (hcs _ _)
      rw [if_pos hlt] at hres
      have := bestOtherGo_isSome csim cent d cname rest o (csim (cent cname) (cent o))
      rw [hres] at this
      simp at this

theorem absorb_facts {d : ClusterDict} {tgt cname : String} {mems : List ℕ}
    (hwf : WFCD d) (htgt : tgt ∈ keysCD d)
    (hlk : lookupCD d cname = some mems) (hne : tgt ≠ cname) :
    membersCD (popCD (setCD d tgt (getCD d tgt ++ mems)) cname) = membersCD d ∧
    WFCD (popCD (setCD d tgt (getCD d tgt ++ mems)) cname) ∧
    keysCD (popCD (setCD d tgt (getCD d tgt ++ mems)) cname) = (keysCD d).erase cname := by
  have hlkT : lookupCD d tgt = some (getCD d tgt) := lookupCD_getCD htgt
  set d1 := setCD d tgt (getCD d tgt ++ mems) with hd1
  have hk1 : keysCD d1 = keysCD d := keysCD_setCD_mem _ htgt
  have hwf1 : WFCD d1 := WFCD_setCD_mem _ hwf htgt
  have hlkC1 : lookupCD d1 cname = some mems := by
    rw [hd1, lookupCD_setCD_ne _ hne, hlk]
  refine ⟨?_, WFCD_popCD _ hwf1, by rw [keysCD_popCD, hk1]⟩
  have hm1 : membersCD d1 + ↑(getCD d tgt) = membersCD d + ↑(getCD d tgt ++ mems) :=
    membersCD_setCD _ hlkT
  have hm2 : membersCD (popCD d1 cname) + ↑mems = membersCD d1 :=
    membersCD_popCD hlkC1
  have hcoe : (↑(getCD d tgt ++ mems) : Multiset ℕ) = ↑(getCD d tgt) + ↑mems := by
    rw [← Multiset.coe_add]
  rw [hcoe] at hm1
  have h3 : membersCD (popCD d1 cname) + (↑(getCD d tgt) + ↑mems) =
      membersCD d + (↑(getCD d tgt) + ↑mems) := by
    calc membersCD (popCD d1 cname) + (↑(getCD d tgt) + ↑mems)
        = membersCD (popCD d1 cname) + ↑mems + ↑(getCD d tgt) := by abel
      _ = membersCD d1 + ↑(getCD d tgt) := by rw [hm2]
      _ = membersCD d + (↑(getCD d tgt) + ↑mems) := hm1
  exact add_right_cancel h3

/-- Case analysis of one normalizer iteration. -/
theorem enforceStep_cases (csim : List ℚ → List ℚ → ℚ) (emb : ℕ → List ℚ)
    (minSize : ℕ) (snapshot : List String) (d : ClusterDict)
    (cent : String → List ℚ) (cname : String) :
    enforceStep csim emb minSize snapshot d cent cname = (d, cent) ∨
    ∃ mems tgt, lookupCD d cname = some mems ∧ mems.length < minSize ∧
      bestOther csim cent d snapshot cname = some tgt ∧
      enforceStep csim emb minSize snapshot d cent cname
        = (popCD (setCD d tgt (getCD d tgt ++ mems)) cname,
            fun n => if n = tgt then centroid emb (getCD d tgt ++ mems) else cent n) := by
  have hdec : ∀ o : Option (List ℕ),
      enforceDecide csim emb minSize snapshot d cent cname o = (d, cent) ∨
      ∃ mems tgt, o = some mems ∧ mems.length < minSize ∧
        bestOther csim cent d snapshot cname = some tgt ∧
        enforceDecide csim emb minSize snapshot d cent cname o
          = (popCD (setCD d tgt (getCD d tgt ++ mems)) cname,
              fun n => if n = tgt then centroid emb (getCD d tgt ++ mems) else cent n) := by
    intro o
    cases o with
    | none => exact Or.inl rfl
    | some mems =>
      simp only [enforceDecide]
      by_cases hsz : mems.length < minSize
      · rw [if_pos hsz]
        cases hbo : bestOther csim cent d snapshot cname with
        | none => exact Or.inl rfl
        | some tgt => exact Or.inr ⟨mems, tgt, rfl, hsz, rfl, rfl⟩
      · rw [if_neg hsz]
        exact Or.inl rfl
  unfold enforceStep
  rcases hdec (lookupCD d cname) with h | ⟨mems, tgt, ho, hsz, hbo, h⟩
  · exact Or.inl h
  · exact Or.inr ⟨mems, tgt, ho, hsz, hbo, h⟩

/-- The size normalizer preserves the member multiset and key uniqueness
    and introduces no new cluster names. -/
theorem enforceGo_facts (csim : List ℚ → List ℚ → ℚ) (emb : ℕ → List ℚ)
    (minSize : ℕ) (snapshot : List String) :
    ∀ (pending : List String) (d : ClusterDict) (cent : String → List ℚ),
      WFCD d →
      membersCD (enforceGo csim emb minSize snapshot d cent pending) = membersCD d ∧
      WFCD (enforceGo csim emb minSize snapshot d cent pending) ∧
      keysCD (enforceGo csim emb minSize snapshot d cent pending) ⊆ keysCD d := by
  intro pending
  induction pending with
  | nil =>
    intro d cent hwf
    exact ⟨rfl, hwf, fun a ha => ha⟩
  | cons cname rest ih =>
    intro d cent hwf
    simp only [enforceGo]
    rcases enforceStep_cases csim emb minSize snapshot d cent cname with
      hstep | ⟨mems, tgt, hlk, _, hbo, hstep⟩
    · rw [hstep]
      exact ih d cent hwf
    · rw [hstep]
      obtain ⟨htne, htlk⟩ := bestOtherGo_some csim cent d cname snapshot none (-999)
        (by intro t ht; simp at ht) tgt hbo
      have htgt : tgt ∈ keysCD d := lookupCD_mem_keys.2 (by
        cases h : lookupCD d tgt with
        | none => exact absurd h htlk
        | some v => rfl)
      obtain ⟨hm, hw, hk⟩ := absorb_facts hwf htgt hlk htne
      obtain ⟨hm2, hw2, hk2⟩ := ih _ _ hw
      refine ⟨by rw [hm2, hm], hw2, ?_⟩
      intro a ha
      have := hk2 ha
      rw [hk] at this
      exact List.erase_subset _ _ this

theorem enforceGo_untouched (csim : List ℚ → List ℚ → ℚ) (emb : ℕ → List ℚ)
    (minSize : ℕ) (snapshot : List String) :
    ∀ (pending : List String) (d : ClusterDict) (cent : String → List ℚ),
      (∀ r ∈ pending, ∀ v, lookupCD d r = some v → minSize ≤ v.length) →
      enforceGo csim emb minSize snapshot d cent pending = d := by
  intro pending
  induction pending with
  | nil => intro d cent _; rfl
  | cons cname rest ih =>
    intro d cent hbig
    simp only [enforceGo]
    have hstep : enforceStep csim emb minSize snapshot d cent cname = (d, cent) := by
      unfold enforceStep
      cases hlk : lookupCD d cname with
      | none => rfl
      | some mems =>
        have := hbig cname (List.mem_cons_self _ _) mems hlk
        simp only [enforceDecide]
        rw [if_neg (by omega)]
    rw [hstep]
    exact ih d cent (fun r hr => hbig r (List.mem_cons_of_mem _ hr))

theorem enforceGo_absent (csim : List ℚ → List ℚ → ℚ) (emb : ℕ → List ℚ)
    (minSize : ℕ) (snapshot : List String) :
    ∀ (pending : List String) (d : ClusterDict) (cent : String → List ℚ),
      (∀ r ∈ pending, lookupCD d r = none) →
      enforceGo csim emb minSize snapshot d cent pending = d := by
  intro pending
  induction pending with
  | nil => intro d cent _; rfl
  | cons cname rest ih =>
    intro d cent habs
    simp only [enforceGo]
    have hstep : enforceStep csim emb minSize snapshot d cent cname = (d, cent) := by
      unfold enforceStep
      rw [habs cname (List.mem_cons_self _ _)]
      rfl
    rw [hstep]
    exact ih d cent (fun r hr => habs r (List.mem_cons_of_mem _ hr))

/-- Finer case analysis of one normalizer iteration, separating the
    degenerate no-target branch. -/
theorem enforceStep_cases3 (csim : List ℚ → List ℚ → ℚ) (emb : ℕ → List ℚ)
    (minSize : ℕ) (snapshot : List String) (d : ClusterDict)
    (cent : String → List ℚ) (cname : String) :
    (lookupCD d cname = none ∧
      enforceStep csim emb minSize snapshot d cent cname = (d, cent)) ∨
    (∃ mems, lookupCD d cname = some mems ∧ minSize ≤ mems.length ∧
      enforceStep csim emb minSize snapshot d cent cname = (d, cent)) ∨
    (∃ mems, lookupCD d cname = some mems ∧ mems.length < minSize ∧
      ((bestOther csim cent d snapshot cname = none ∧
          enforceStep csim emb minSize snapshot d cent cname = (d, cent)) ∨
        (∃ tgt, bestOther csim cent d snapshot cname = some tgt ∧
          enforceStep csim emb minSize snapshot d cent cname
            = (popCD (setCD d tgt (getCD d tgt ++ mems)) cname,
                fun n => if n = tgt then centroid emb (getCD d tgt ++ mems)
                  else cent n)))) := by
  have hdec : ∀ o : Option (List ℕ), lookupCD d cname = o →
      (lookupCD d cname = none ∧
        enforceDecide csim emb minSize snapshot d cent cname o = (d, cent)) ∨
      (∃ mems, lookupCD d cname = some mems ∧ minSize ≤ mems.length ∧
        enforceDecide csim emb minSize snapshot d cent cname o = (d, cent)) ∨
      (∃ mems, lookupCD d cname = some mems ∧ mems.length < minSize ∧
        ((bestOther csim cent d snapshot cname = none ∧
            enforceDecide csim emb minSize snapshot d cent cname o = (d, cent)) ∨
          (∃ tgt, bestOther csim cent d snapshot cname = some tgt ∧
            enforceDecide csim emb minSize snapshot d cent cname o
              = (popCD (setCD d tgt (getCD d tgt ++ mems)) cname,
                  fun n => if n = tgt then centroid emb (getCD d tgt ++ mems)
                    else cent n)))) := by
    intro o ho
    cases o with
    | none => exact Or.inl ⟨ho, rfl⟩
    | some mems =>
      simp only [enforceDecide]
      by_cases hsz : mems.length < minSize
      · rw [if_pos hsz]
        refine Or.inr (Or.inr ⟨mems, ho, hsz, ?_⟩)
        cases hbo : bestOther csim cent d snapshot cname with
        | none => exact Or.inl ⟨rfl, rfl⟩
        | some tgt => exact Or.inr ⟨tgt, rfl, rfl⟩
      · rw [if_neg hsz]
        exact Or.inr (Or.inl ⟨mems, ho, by omega, rfl⟩)
  exact hdec (lookupCD d cname) rfl

theorem keys_singleton_of_all_eq {l : List String} {c : String}
    (hnd : l.Nodup) (hall : ∀ k ∈ l, k = c) (hmem : c ∈ l) : l.length = 1 := by
  cases l with
  | nil => simp at hmem
  | cons a t =>
    have ha : a = c := hall a (List.mem_cons_self _ _)
    cases t with
    | nil => rfl
    | cons b t2 =>
      have hb : b = c := hall b (List.mem_cons_of_mem _ (List.mem_cons_self _ _))
      exact absurd (by rw [ha, ← hb]; exact List.mem_cons_self _ _)
        (List.nodup_cons.1 hnd).1

/-- Core induction of the minimum-size property: after the normalizer has
    scanned every name, every surviving cluster is large enough unless
    only one cluster survives at all. -/
theorem enforceGo_minsize (csim : List ℚ → List ℚ → ℚ) (emb : ℕ → List ℚ)
    (minSize : ℕ) (snapshot : List String) (hcs : ∀ u v, -1 ≤ csim u v)
    (hsnap : snapshot.Nodup) :
    ∀ (pending : List String) (d : ClusterDict) (cent : String → List ℚ),
      WFCD d → pending.Sublist snapshot →
      keysCD d ⊆ snapshot →
      (∀ k ∈ keysCD d, k ∉ pending → minSize ≤ (getCD d k).length) →
      (∀ p ∈ enforceGo csim emb minSize snapshot d cent pending, minSize ≤ p.2.length)
      ∨ (keysCD (enforceGo csim emb minSize snapshot d cent pending)).length = 1 := by
  intro pending
  induction pending with
  | nil =>
    intro d cent hwf _ _ hbig
    left
    intro p hp
    have hlk := lookupCD_of_mem hwf hp
    have hkm : p.1 ∈ keysCD d := List.mem_map.2 ⟨p, hp, rfl⟩
    have := hbig p.1 hkm (by simp)
    rwa [getCD, hlk, Option.getD_some] at this
  | cons cname rest ih =>
    intro d cent hwf hsl hsub hbig
    have hrest_sl : rest.Sublist snapshot := List.sublist_of_cons_sublist hsl
    have hpnd : (cname :: rest).Nodup := hsl.nodup hsnap
    have hcnr : cname ∉ rest := (List.nodup_cons.1 hpnd).1
    simp only [enforceGo]
    rcases enforceStep_cases3 csim emb minSize snapshot d cent cname with
      ⟨hlk, hstep⟩ | ⟨mems, hlk, hge, hstep⟩ | ⟨mems, hlk, hsz, hrest⟩
    · rw [hstep]
      refine ih d cent hwf hrest_sl hsub ?_
      intro k hk hknr
      by_cases hkc : k = cname
      · subst hkc
        exact absurd (lookupCD_mem_keys.1 hk) (by rw [hlk]; simp)
      · exact hbig k hk (by simp [hkc, hknr])
    · rw [hstep]
      refine ih d cent hwf hrest_sl hsub ?_
      intro k hk hknr
      by_cases hkc : k = cname
      · subst hkc
        rw [getCD, hlk, Option.getD_some]
        exact hge
      · exact hbig k hk (by simp [hkc, hknr])
    · have hcmem : cname ∈ keysCD d :=
        lookupCD_mem_keys.2 (by rw [hlk]; rfl)
      rcases hrest with ⟨hbo, hstep⟩ | ⟨tgt, hbo, hstep⟩
      · rw [hstep]
        have hdead : ∀ other ∈ snapshot, other = cname ∨ lookupCD d other = none :=
          bestOtherGo_none csim cent d cname hcs snapshot hbo
        have habs : ∀ r ∈ rest, lookupCD d r = none := by
          intro r hr
          rcases hdead r (hrest_sl.subset hr) with h | h
          · exact absurd (h ▸ hr) hcnr
          · exact h
        right
        show (keysCD (enforceGo csim emb minSize snapshot d cent rest)).length = 1
        rw [enforceGo_absent csim emb minSize snapshot rest d cent habs]
        refine keys_singleton_of_all_eq hwf ?_ hcmem
        intro k hk
        rcases hdead k (hsub hk) with h | h
        · exact h
        · exact absurd (lookupCD_mem_keys.1 hk) (by rw [h]; simp)
      · rw [hstep]
        obtain ⟨htne, htlk⟩ := bestOtherGo_some csim cent d cname snapshot none (-999)
          (by intro t ht; simp at ht) tgt hbo
        have htgt : tgt ∈ keysCD d := lookupCD_mem_keys.2 (by
          cases h : lookupCD d tgt with
          | none => exact absurd h htlk
          | some v => rfl)
        obtain ⟨_, hw, hk⟩ := absorb_facts hwf htgt hlk htne
        refine ih _ _ hw hrest_sl ?_ ?_
        · intro a ha
          rw [hk] at ha
          exact hsub (List.erase_subset _ _ ha)
        · intro k hkmem hknr
          rw [hk] at hkmem
          have hkd : k ∈ keysCD d := List.erase_subset _ _ hkmem
          have hkc : k ≠ cname := ((List.Nodup.mem_erase_iff hwf).1 hkmem).1
          by_cases hkt : k = tgt
          · subst hkt
            have hlkT : lookupCD (popCD (setCD d k (getCD d k ++ mems)) cname) k
                = some (getCD d k ++ mems) := by
              rw [lookupCD_popCD_ne (fun he => hkc he.symm),
                lookupCD_setCD_self]
            rw [getCD, hlkT, Option.getD_some, List.length_append]
            have : minSize ≤ (getCD d k).length :=
              hbig k hkd (by simp [hkc, hknr])
            omega
          · have hlkK : lookupCD (popCD (setCD d tgt (getCD d tgt ++ mems)) cname) k
                = lookupCD d k := by
              rw [lookupCD_popCD_ne (fun he => hkc he.symm),
                lookupCD_setCD_ne _ (fun he => hkt he.symm)]
            rw [getCD, hlkK]
            have := hbig k hkd (by simp [hkc, hknr])
            rwa [getCD] at this

theorem enforceMinClusterSize_facts (csim : List ℚ → List ℚ → ℚ) (emb : ℕ → List ℚ)
    (minSize : ℕ) (d : ClusterDict) (hwf : WFCD d) :
    membersCD (enforceMinClusterSize csim emb minSize d) = membersCD d ∧
    WFCD (enforceMinClusterSize csim emb minSize d) ∧
    keysCD (enforceMinClusterSize csim emb minSize d) ⊆ keysCD d :=
  enforceGo_facts csim emb minSize (keysCD d) (keysCD d) d _ hwf

/-- The minimum-size property of the normalizer. -/
theorem enforceMinClusterSize_minsize (csim : List ℚ → List ℚ → ℚ) (emb : ℕ → List ℚ)
    (minSize : ℕ) (d : ClusterDict) (hwf : WFCD d) (hcs : ∀ u v, -1 ≤ csim u v) :
    (∀ p ∈ enforceMinClusterSize csim emb minSize d, minSize ≤ p.2.length) ∨
    (keysCD (enforceMinClusterSize csim emb minSize d)).length = 1 :=
  enforceGo_minsize csim emb minSize (keysCD d) hcs hwf (keysCD d) d _ hwf
    (List.Sublist.refl _) (fun _ ha => ha) (fun _ hk hnk => absurd hk hnk)

/-- The normalizer does not touch a state whose clusters all meet the
    minimum size. -/
theorem enforceMinClusterSize_id (csim : List ℚ → List ℚ → ℚ) (emb : ℕ → List ℚ)
    (minSize : ℕ) (d : ClusterDict) (hbig : ∀ p ∈ d, minSize ≤ p.2.length) :
    enforceMinClusterSize csim emb minSize d = d := by
  refine enforceGo_untouched csim emb minSize (keysCD d) (keysCD d) d _ ?_
  intro r _ v hlk
  exact hbig (r, v) (mem_of_lookupCD hlk)

/-- The normalizer does not touch a state with at most one cluster. -/
theorem enforceMinClusterSize_small (csim : List ℚ → List ℚ → ℚ) (emb : ℕ → List ℚ)
    (minSize : ℕ) (d : ClusterDict) (h : (keysCD d).length ≤ 1) :
    enforceMinClusterSize csim emb minSize d = d := by
  cases d with
  | nil => rfl
  | cons p rest =>
    obtain ⟨c, v⟩ := p
    cases rest with
    | cons q rest2 => simp [keysCD] at h
    | nil =>
      show enforceGo csim emb minSize (keysCD [(c, v)]) [(c, v)] _ (keysCD [(c, v)]) = _
      have hkeys : keysCD [(c, v)] = [c] := rfl
      rw [hkeys]
      simp only [enforceGo]
      unfold enforceStep
      have hlk : lookupCD [(c, v)] c = some v := by simp [lookupCD]
      rw [hlk]
      simp only [enforceDecide]
      by_cases hsz : v.length < minSize
      · rw [if_pos hsz]
        have hbo : bestOther csim (fun n => centroid emb (getCD [(c, v)] n))
            [(c, v)] [c] c = none := by
          simp [bestOther, bestOtherGo]
        rw [hbo]
      · rw [if_neg hsz]

/-! ## Identity lemmas for an all-declining oracle -/

theorem mergeInner_noop (mresp : MergeResp) (docs : List Doc)
    (hno : ∀ a sa b sb, mergeDecision (mresp a sa b sb) = false) :
    ∀ (fuel : ℕ) (d : ClusterDict) (names : List String) (i j : ℕ),
      mergeInner mresp docs fuel d names i j = (d, names) := by
  intro fuel
  induction fuel with
  | zero => intro d names i j; rfl
  | succ fuel ih =>
    intro d names i j
    simp only [mergeInner]
    by_cases hjlen : j < names.length
    · rw [if_pos hjlen]
      have hsays : llmSaysMerge mresp docs (names.getD i "") (getCD d (names.getD i ""))
          (names.getD j "") (getCD d (names.getD j "")) = false := hno _ _ _ _
      rw [hsays]
      simp only [Bool.false_eq_true, if_false]
      exact ih d names i (j + 1)
    · rw [if_neg hjlen]

theorem mergeOuter_noop (mresp : MergeResp) (docs : List Doc)
    (hno : ∀ a sa b sb, mergeDecision (mresp a sa b sb) = false) :
    ∀ (fuel : ℕ) (d : ClusterDict) (names : List String) (i : ℕ),
      mergeOuter mresp docs fuel d names i = d := by
  intro fuel
  induction fuel with
  | zero => intro d names i; rfl
  | succ fuel ih =>
    intro d names i
    simp only [mergeOuter]
    by_cases hilen : i < names.length
    · rw [if_pos hilen, mergeInner_noop mresp docs hno]
      rw [if_neg (by simp)]
      exact ih d names (i + 1)
    · rw [if_neg hilen]

/-- An always-declining merge oracle leaves the state untouched. -/
theorem attemptMerges_noop (mresp : MergeResp) (docs : List Doc) (d : ClusterDict)
    (hno : ∀ a sa b sb, mergeDecision (mresp a sa b sb) = false) :
    attemptMerges mresp docs d = d :=
  mergeOuter_noop mresp docs hno _ d (keysCD d) 0

/-- An oracle that never produces a split directive leaves the state
    untouched. -/
theorem splitsGo_noop (sresp : SplitResp) (sub : List ℕ → ℕ → List ℕ) (docs : List Doc)
    (hno : ∀ c s, llmSaysSplit (sresp c s) = none) :
    ∀ (pending : List String) (d : ClusterDict),
      splitsGo sresp sub docs d pending = d := by
  intro pending
  induction pending with
  | nil => intro d; rfl
  | cons cname rest ih =>
    intro d
    simp only [splitsGo]
    have hstep : splitStep sresp sub docs d cname = d := by
      unfold splitStep
      cases hlk : lookupCD d cname with
      | none => rfl
      | some dis =>
        have h2 : splitDecide d cname dis (sub dis)
            (llmSaysSplit (sresp cname (buildClusterSummary docs dis))) = d := by
          rw [hno]
          rfl
        exact h2
    rw [hstep]
    exact ih d

theorem attemptSplits_noop (sresp : SplitResp) (sub : List ℕ → ℕ → List ℕ)
    (docs : List Doc) (d : ClusterDict)
    (hno : ∀ c s, llmSaysSplit (sresp c s) = none) :
    attemptSplits sresp sub docs d = d :=
  splitsGo_noop sresp sub docs hno (keysCD d) d

/-! ## Lemmas about final naming -/

theorem namingStep_cases (nresp : NameResp) (docs : List Doc) (known : List String)
    (acc : List (String × List ℕ)) (dis : List ℕ) :
    (∃ e, nresp (buildClusterSummary docs dis) (referenceListStr known) = Except.error e ∧
      namingStep nresp docs known acc dis = Except.error e) ∨
    (∃ resp acc2, nresp (buildClusterSummary docs dis) (referenceListStr known)
        = Except.ok resp ∧
      namingStep nresp docs known acc dis = Except.ok acc2 ∧
      membersCD acc2 = membersCD acc + ↑dis) := by
  cases hr : nresp (buildClusterSummary docs dis) (referenceListStr known) with
  | error e =>
    refine Or.inl ⟨e, rfl, ?_⟩
    unfold namingStep
    rw [hr]
  | ok resp =>
    refine Or.inr ⟨resp, ?_⟩
    cases hlk : lookupCD acc (featureNameOf resp) with
    | some v =>
      refine ⟨setCD acc (featureNameOf resp) (v ++ dis), rfl, ?_, ?_⟩
      · unfold namingStep
        rw [hr]
        have h2 : (match lookupCD acc (featureNameOf resp) with
            | some v => (Except.ok (setCD acc (featureNameOf resp) (v ++ dis)) :
                Except Unit (List (String × List ℕ)))
            | none => Except.ok (acc ++ [(featureNameOf resp, dis)]))
            = Except.ok (setCD acc (featureNameOf resp) (v ++ dis)) := by
          rw [hlk]
        exact h2
      · have hm := membersCD_setCD (v ++ dis) hlk
        have hcoe : (↑(v ++ dis) : Multiset ℕ) = ↑v + ↑dis := by
          rw [← Multiset.coe_add]
        rw [hcoe] at hm
        have h3 : membersCD (setCD acc (featureNameOf resp) (v ++ dis)) + ↑v
            = (membersCD acc + ↑dis) + ↑v := by
          rw [hm]; abel
        exact add_right_cancel h3
    | none =>
      refine ⟨acc ++ [(featureNameOf resp, dis)], rfl, ?_, membersCD_append _ _ _⟩
      unfold namingStep
      rw [hr]
      have h2 : (match lookupCD acc (featureNameOf resp) with
          | some v => (Except.ok (setCD acc (featureNameOf resp) (v ++ dis)) :
              Except Unit (List (String × List ℕ)))
          | none => Except.ok (acc ++ [(featureNameOf resp, dis)]))
          = Except.ok (acc ++ [(featureNameOf resp, dis)]) := by
        rw [hlk]
      exact h2

theorem namingGo_members (nresp : NameResp) (docs : List Doc) (known : List String) :
    ∀ (rest : ClusterDict) (acc : List (String × List ℕ)) (r : List (String × List ℕ)),
      namingGo nresp docs known acc rest = Except.ok r →
      membersCD r = membersCD acc + membersCD rest := by
  intro rest
  induction rest with
  | nil =>
    intro acc r h
    simp only [namingGo, Except.ok.injEq] at h
    subst h
    simp [membersCD]
  | cons p rest ih =>
    obtain ⟨cname, dis⟩ := p
    intro acc r h
    simp only [namingGo] at h
    rcases namingStep_cases nresp docs known acc dis with ⟨e, _, hstep⟩ | ⟨resp, acc2, _, hstep, hmem⟩
    · rw [hstep] at h
      simp at h
    · rw [hstep] at h
      have := ih acc2 r h
      rw [this, hmem]
      simp only [membersCD, List.map_cons, List.sum_cons]
      abel

/-- The naming pass returns a FeatureMap exactly when every naming call
    returns (with any text); one raised call makes the whole pass fail. -/
theorem namingGo_ok_iff (nresp : NameResp) (docs : List Doc) (known : List String) :
    ∀ (rest : ClusterDict) (acc : List (String × List ℕ)),
      (∃ r, namingGo nresp docs known acc rest = Except.ok r) ↔
      (∀ p ∈ rest, ∃ resp,
        nresp (buildClusterSummary docs p.2) (referenceListStr known) = Except.ok resp) := by
  intro rest
  induction rest with
  | nil =>
    intro acc
    simp [namingGo]
  | cons p rest ih =>
    obtain ⟨cname, dis⟩ := p
    intro acc
    simp only [namingGo]
    rcases namingStep_cases nresp docs known acc dis with ⟨e, hr, hstep⟩ | ⟨resp, acc2, hr, hstep, _⟩
    · rw [hstep]
      constructor
      · rintro ⟨r, hok⟩
        simp at hok
      · intro hall
        obtain ⟨resp, hresp⟩ := hall (cname, dis) (List.mem_cons_self _ _)
        rw [hr] at hresp
        simp at hresp
    · rw [hstep]
      constructor
      · rintro ⟨r, hok⟩
        intro q hq
        rcases List.mem_cons.1 hq with h | h
        · exact ⟨resp, by rw [h]; exact hr⟩
        · exact (ih acc2).1 ⟨r, hok⟩ q h
      · intro hall
        exact (ih acc2).2 (fun q hq => hall q (List.mem_cons_of_mem _ hq))

/-! ## Lemmas about the refinement loop -/

theorem stableB_iff (a b : ClusterDict) :
    stableB a b = true ↔
      ((∀ k, k ∈ keysCD a ↔ k ∈ keysCD b) ∧
        ∀ k ∈ keysCD a, ∀ x : ℕ, x ∈ getCD a k ↔ x ∈ getCD b k) := by
  simp only [stableB, keysSetEqB, listSetEqB, Bool.and_eq_true, List.all_eq_true,
    List.elem_iff, decide_eq_true_eq]
  constructor
  · rintro ⟨⟨h1, h2⟩, h3⟩
    refine ⟨fun k => ⟨fun hk => h1 k hk, fun hk => h2 k hk⟩, ?_⟩
    intro k hk x
    obtain ⟨h4, h5⟩ := h3 k hk
    exact ⟨fun hx => h4 x hx, fun hx => h5 x hx⟩
  · rintro ⟨h1, h2⟩
    refine ⟨⟨fun k hk => (h1 k).1 hk, fun k hk => (h1 k).2 hk⟩, ?_⟩
    intro k hk
    exact ⟨fun x hx => (h2 k hk x).1 hx, fun x hx => (h2 k hk x).2 hx⟩

/-- Complete characterisation of the refinement loop: the number of
    executed passes is bounded by the fuel, the returned state is exactly
    the state after that many passes, an early exit happens only when the
    last pass left the state stable, and no earlier pass did. -/
theorem refineAux_spec (step : ℕ → ClusterDict → ClusterDict) :
    ∀ (fuel : ℕ) (cur : ClusterDict) (it : ℕ),
      refineRounds step cur it fuel ≤ fuel ∧
      refineAux step cur it fuel = iterFrom step cur it (refineRounds step cur it fuel) ∧
      (0 < fuel → 1 ≤ refineRounds step cur it fuel) ∧
      (refineRounds step cur it fuel < fuel →
        stableB (iterFrom step cur it (refineRounds step cur it fuel))
          (iterFrom step cur it (refineRounds step cur it fuel - 1)) = true) ∧
      (∀ t, t + 1 < refineRounds step cur it fuel →
        stableB (iterFrom step cur it (t + 1)) (iterFrom step cur it t) = false) := by
  intro fuel
  induction fuel with
  | zero =>
    intro cur it
    refine ⟨le_refl _, rfl, by omega, by omega, ?_⟩
    intro t ht
    simp [refineRounds] at ht
  | succ fuel ih =>
    intro cur it
    by_cases hst : stableB (step it cur) cur = true
    · have hr : refineRounds step cur it (fuel + 1) = 1 := by
        simp only [refineRounds, hst, if_pos]
      have ha : refineAux step cur it (fuel + 1) = step it cur := by
        simp only [refineAux, hst, if_pos]
      refine ⟨by omega, ?_, by omega, ?_, ?_⟩
      · rw [hr, ha]
        rfl
      · intro _
        rw [hr]
        show stableB (iterFrom step cur it 1) (iterFrom step cur it 0) = true
        have h1 : iterFrom step cur it 1 = step it cur := rfl
        rw [h1]
        exact hst
      · intro t ht
        rw [hr] at ht
        omega
    · have hst' : stableB (step it cur) cur = false := by
        cases h : stableB (step it cur) cur
        · rfl
        · exact absurd h hst
      have hr : refineRounds step cur it (fuel + 1)
          = 1 + refineRounds step (step it cur) (it + 1) fuel := by
        simp only [refineRounds, hst', Bool.false_eq_true, if_false]
      have ha : refineAux step cur it (fuel + 1)
          = refineAux step (step it cur) (it + 1) fuel := by
        simp only [refineAux, hst', Bool.false_eq_true, if_false]
      obtain ⟨ih1, ih2, ih3, ih4, ih5⟩ := ih (step it cur) (it + 1)
      set r := refineRounds step (step it cur) (it + 1) fuel with hrr
      have hiter : ∀ n, iterFrom step cur it (n + 1) = iterFrom step (step it cur) (it + 1) n :=
        fun n => rfl
      refine ⟨by omega, ?_, by omega, ?_, ?_⟩
      · rw [hr, ha, ih2]
        have : 1 + r = r + 1 := by omega
        rw [this, hiter r]
      · intro hlt
        rw [hr] at hlt ⊢
        have hrpos : 1 ≤ r := ih3 (by omega)
        have h1 : 1 + r - 1 = (r - 1) + 1 := by omega
        have h2 : 1 + r = r + 1 := by omega
        rw [h1, h2, hiter r, hiter (r - 1)]
        exact ih4 (by omega)
      · intro t ht
        rw [hr] at ht
        cases t with
        | zero =>
          show stableB (iterFrom step cur it 1) (iterFrom step cur it 0) = false
          have h1 : iterFrom step cur it 1 = step it cur := rfl
          rw [h1]
          exact hst'
        | succ u =>
          rw [hiter (u + 1), hiter u]
          exact ih5 u (by omega)

/-! ## Lemmas about the top-down assignment -/

/-- Strict priority realised by the stable descending sort: x is placed
    before y when x scores strictly higher, or the scores tie and x has
    the earlier index. -/
def pairAhead (x y : ℕ × ℚ) : Prop :=
  y.2 < x.2 ∨ (x.2 = y.2 ∧ x.1 < y.1)

instance pairAheadDec (x y : ℕ × ℚ) : Decidable (pairAhead x y) := by
  unfold pairAhead
  infer_instance

theorem pairAhead_irrefl (x : ℕ × ℚ) : ¬pairAhead x x := by
  simp [pairAhead]

theorem pairAhead_asymm {x y : ℕ × ℚ} (h : pairAhead x y) : ¬pairAhead y x := by
  rcases h with h | ⟨h1, h2⟩
  · rintro (h' | ⟨h1', _⟩)
    · exact absurd h (lt_asymm h')
    · exact absurd h (by rw [h1']; exact lt_irrefl _)
  · rintro (h' | ⟨_, h2'⟩)
    · exact absurd h' (by rw [h1]; exact lt_irrefl _)
    · omega

theorem insDesc_perm (p : ℕ × ℚ) (l : List (ℕ × ℚ)) :
    (insDesc p l).Perm (p :: l) := by
  induction l with
  | nil => exact List.Perm.refl _
  | cons q rest ih =>
    by_cases h : q.2 ≤ p.2
    · rw [insDesc, if_pos h]
    · rw [insDesc, if_neg h]
      exact (ih.cons q).trans (List.Perm.swap p q rest)

theorem sortDesc_perm (l : List (ℕ × ℚ)) : (sortDesc l).Perm l := by
  induction l with
  | nil => exact List.Perm.refl _
  | cons x xs ih =>
    exact (insDesc_perm x _).trans (ih.cons x)

theorem insDesc_pairwise {x : ℕ × ℚ} {L : List (ℕ × ℚ)}
    (hL : List.Pairwise pairAhead L) (hidx : ∀ y ∈ L, x.1 < y.1) :
    List.Pairwise pairAhead (insDesc x L) := by
  induction L with
  | nil => simp [insDesc]
  | cons q rest ih =>
    by_cases h : q.2 ≤ x.2
    · rw [insDesc, if_pos h]
      refine List.Pairwise.cons ?_ hL
      intro y hy
      have hyle : y.2 ≤ x.2 := by
        rcases List.mem_cons.1 hy with h1 | h1
        · exact h1 ▸ h
        · rcases (List.pairwise_cons.1 hL).1 y h1 with h2 | ⟨h2, _⟩
          · exact le_trans (le_of_lt h2) h
          · exact le_trans (le_of_eq h2.symm) h
      rcases lt_or_eq_of_le hyle with h2 | h2
      · exact Or.inl h2
      · exact Or.inr ⟨h2.symm, hidx y hy⟩
    · rw [insDesc, if_neg h]
      refine List.Pairwise.cons ?_ (ih (List.pairwise_cons.1 hL).2
        (fun y hy => hidx y (List.mem_cons_of_mem _ hy)))
      intro y hy
      rcases List.mem_cons.1 ((insDesc_perm x rest).mem_iff.1 hy) with h1 | h1
      · subst h1
        exact Or.inl (lt_of_not_le h)
      · exact (List.pairwise_cons.1 hL).1 y h1

theorem sortDesc_pairwise {l : List (ℕ × ℚ)}
    (hidx : List.Pairwise (fun a b : ℕ × ℚ => a.1 < b.1) l) :
    List.Pairwise pairAhead (sortDesc l) := by
  induction l with
  | nil => exact List.Pairwise.nil
  | cons x xs ih =>
    refine insDesc_pairwise (ih (List.pairwise_cons.1 hidx).2) ?_
    intro y hy
    exact (List.pairwise_cons.1 hidx).1 y ((sortDesc_perm xs).mem_iff.1 hy)

/-- Number of corpus elements strictly ahead of j in the stable ranking. -/
def aheadCount (n : ℕ) (score : ℕ → ℚ) (j : ℕ) : ℕ :=
  ((List.range n).filter
    (fun i => decide (pairAhead (i, score i) (j, score j)))).length

theorem assignDocs_length_le (n : ℕ) (score : ℕ → ℚ) (topK : ℕ) (minSim : ℚ) :
    (assignDocsToFeature n score topK minSim).length ≤ topK := by
  unfold assignDocsToFeature
  calc _ = ((List.take topK (sortDesc ((List.range n).map fun i => (i, score i)))).filter
        (fun p => decide (minSim ≤ p.2))).length := List.length_map ..
    _ ≤ (List.take topK (sortDesc ((List.range n).map fun i => (i, score i)))).length :=
        List.length_filter_le _ _
    _ ≤ topK := by rw [List.length_take]; omega

/-- Exact membership characterisation of _assign_docs_to_feature: the
    assigned indices are precisely the corpus indices whose score meets
    the threshold and that fewer than top_k elements beat (higher score,
    or equal score with an earlier index). -/
theorem assignDocs_mem_iff (n : ℕ) (score : ℕ → ℚ) (topK : ℕ) (minSim : ℚ) (j : ℕ) :
    j ∈ assignDocsToFeature n score topK minSim ↔
      (j < n ∧ minSim ≤ score j ∧ aheadCount n score j < topK) := by
  set results := (List.range n).map (fun i => (i, score i)) with hres
  set L := sortDesc results with hL
  have hperm : L.Perm results := sortDesc_perm results
  have hnd : L.Nodup := hperm.nodup_iff.2 (by
    refine List.Nodup.map ?_ (List.nodup_range n)
    intro a b hab
    exact congrArg Prod.fst hab)
  have hpw : List.Pairwise pairAhead L := by
    refine sortDesc_pairwise ?_
    refine List.Pairwise.map _ ?_ (List.pairwise_lt_range n)
    intro a b hab
    exact hab
  have hmemres : ∀ y : ℕ × ℚ, y ∈ results ↔ y.1 < n ∧ y = (y.1, score y.1) := by
    intro y
    constructor
    · intro hy
      obtain ⟨i, hi, hif⟩ := List.mem_map.1 hy
      rw [← hif]
      exact ⟨List.mem_range.1 hi, rfl⟩
    · rintro ⟨h1, h2⟩
      rw [h2]
      exact List.mem_map.2 ⟨y.1, List.mem_range.2 h1, rfl⟩
  have hcount : ∀ (zj : ℕ × ℚ), zj = (j, score j) →
      aheadCount n score j
        = (L.filter (fun y => decide (pairAhead y zj))).length := by
    rintro zj rfl
    have h1 : (L.filter (fun y => decide (pairAhead y (j, score j)))).length
        = (results.filter (fun y => decide (pairAhead y (j, score j)))).length :=
      (hperm.filter _).length_eq
    rw [h1, hres, List.filter_map, List.length_map]
    rfl
  constructor
  · intro hj
    unfold assignDocsToFeature at hj
    obtain ⟨p, hp, hpj⟩ := List.mem_map.1 hj
    obtain ⟨hptake, hpθ⟩ := List.mem_filter.1 hp
    have hpL : p ∈ L := List.take_subset _ _ hptake
    obtain ⟨hpn, hpform⟩ := (hmemres p).1 (hperm.subset hpL)
    have hpz : p = (j, score j) := by
      rw [hpform, hpj]
    rw [hpz] at hpL hptake
    refine ⟨hpj ▸ hpn, ?_, ?_⟩
    · have := of_decide_eq_true hpθ
      rw [hpz] at this
      exact this
    · obtain ⟨L₁, L₂, hdecomp⟩ := List.append_of_mem hpL
      have hfilt : L.filter (fun y => decide (pairAhead y (j, score j))) = L₁ := by
        rw [hdecomp, List.filter_append]
        have hpwsplit := hdecomp ▸ hpw
        rw [List.pairwise_append] at hpwsplit
        obtain ⟨_, hpw2, hcross⟩ := hpwsplit
        have h1 : L₁.filter (fun y => decide (pairAhead y (j, score j))) = L₁ :=
          List.filter_eq_self.2 (fun y hy =>
            decide_eq_true (hcross y hy _ (List.mem_cons_self _ _)))
        have h2 : ((j, score j) :: L₂).filter
            (fun y => decide (pairAhead y (j, score j))) = [] := by
          refine List.filter_eq_nil.2 ?_
          intro y hy
          rcases List.mem_cons.1 hy with h | h
          · subst h
            simpa using pairAhead_irrefl _
          · simpa using pairAhead_asymm ((List.pairwise_cons.1 hpw2).1 y h)
        rw [h1, h2, List.append_nil]
      rw [hcount (j, score j) rfl, hfilt]
      by_contra hcon
      push_neg at hcon
      have : List.take topK L = List.take topK L₁ := by
        rw [hdecomp]
        exact List.take_append_of_le_length hcon
      rw [this] at hptake
      have : (j, score j) ∈ L₁ := List.take_subset _ _ hptake
      have hnodup2 := hdecomp ▸ hnd
      rw [List.nodup_append] at hnodup2
      exact hnodup2.2.2 this (List.mem_cons_self _ _)
  · rintro ⟨hjn, hjθ, hjcount⟩
    have hzL : (j, score j) ∈ L :=
      hperm.mem_iff.2 ((hmemres (j, score j)).2 ⟨hjn, rfl⟩)
    obtain ⟨L₁, L₂, hdecomp⟩ := List.append_of_mem hzL
    have hfilt : L.filter (fun y => decide (pairAhead y (j, score j))) = L₁ := by
      rw [hdecomp, List.filter_append]
      have hpwsplit := hdecomp ▸ hpw
      rw [List.pairwise_append] at hpwsplit
      obtain ⟨_, hpw2, hcross⟩ := hpwsplit
      have h1 : L₁.filter (fun y => decide (pairAhead y (j, score j))) = L₁ :=
        List.filter_eq_self.2 (fun y hy =>
          decide_eq_true (hcross y hy _ (List.mem_cons_self _ _)))
      have h2 : ((j, score j) :: L₂).filter
          (fun y => decide (pairAhead y (j, score j))) = [] := by
        refine List.filter_eq_nil.2 ?_
        intro y hy
        rcases List.mem_cons.1 hy with h | h
        · subst h
          simpa using pairAhead_irrefl _
        · simpa using pairAhead_asymm ((List.pairwise_cons.1 hpw2).1 y h)
      rw [h1, h2, List.append_nil]
    have hlen1 : L₁.length < topK := by
      have := hcount (j, score j) rfl
      rw [hfilt] at this
      omega
    have hztake : (j, score j) ∈ List.take topK L := by
      rw [hdecomp, List.take_append_eq_append_take,
        List.take_all_of_le (le_of_lt hlen1)]
      refine List.mem_append.2 (Or.inr ?_)
      have : 1 ≤ topK - L₁.length := by omega
      cases htk : topK - L₁.length with
      | zero => omega
      | succ m =>
        rw [List.take]
        exact List.mem_cons_self _ _
    unfold assignDocsToFeature
    refine List.mem_map.2 ⟨(j, score j), ?_, rfl⟩
    refine List.mem_filter.2 ⟨hztake, ?_⟩
    exact decide_eq_true hjθ

theorem featInner_facts (mresp : FeatMergeResp) (docs : List Doc) (fuel : ℕ) :
    ∀ (m : ClusterDict) (names : List String) (i j : ℕ),
      keysCD m = names → WFCD m → i < j →
      MergeInv m names (featInner mresp docs fuel m names i j) := by
  induction fuel with
  | zero =>
    intro m names i j hsync hwf _
    exact ⟨hsync, hwf, rfl, le_refl _, List.Sublist.refl _⟩
  | succ fuel ih =>
    intro m names i j hsync hwf hij
    simp only [featInner]
    by_cases hjlen : j < names.length
    · rw [if_pos hjlen]
      by_cases hguard : lookupCD m (names.getD i "") = none ∨
          lookupCD m (names.getD j "") = none
      · rw [if_pos hguard]
        exact ih _ _ i (j + 1) hsync hwf (Nat.lt_succ_of_lt hij)
      · rw [if_neg hguard]
        by_cases hsays : mergeDecision (mresp (names.getD i "") (names.getD j "")
            (buildClusterSummariesB docs (getCD m (names.getD i "")))
            (buildClusterSummariesB docs (getCD m (names.getD j "")))) = true
        · rw [if_pos hsays]
          have hi : i < names.length := Nat.lt_trans hij hjlen
          obtain ⟨hk, hw, hm⟩ := mergeStep_facts hsync hwf hi hjlen (Nat.ne_of_lt hij)
          obtain ⟨k1, w1, m1, l1, s1⟩ := ih _ _ i j hk hw hij
          refine ⟨k1, w1, by rw [m1, hm], ?_, ?_⟩
          · calc _ ≤ (names.eraseIdx j).length := l1
              _ ≤ names.length := (List.eraseIdx_sublist names j).length_le
          · exact s1.trans (List.eraseIdx_sublist names j)
        · rw [if_neg hsays]
          exact ih _ _ i (j + 1) hsync hwf (Nat.lt_succ_of_lt hij)
    · rw [if_neg hjlen]
      exact ⟨hsync, hwf, rfl, le_refl _, List.Sublist.refl _⟩

theorem featOuter_facts (mresp : FeatMergeResp) (docs : List Doc) (fuel : ℕ) :
    ∀ (m : ClusterDict) (names : List String) (i : ℕ),
      keysCD m = names → WFCD m →
      WFCD (featOuter mresp docs fuel m names i) ∧
      membersCD (featOuter mresp docs fuel m names i) = membersCD m := by
  induction fuel with
  | zero =>
    intro m names i hsync hwf
    exact ⟨hwf, rfl⟩
  | succ fuel ih =>
    intro m names i hsync hwf
    simp only [featOuter]
    by_cases hilen : i < names.length
    · rw [if_pos hilen]
      obtain ⟨k1, w1, m1, _, _⟩ :=
        featInner_facts mresp docs names.length m names i (i + 1) hsync hwf (Nat.lt_succ_self i)
      set r := featInner mresp docs names.length m names i (i + 1) with hr
      by_cases hlt : r.2.length < names.length
      · rw [if_pos hlt]
        obtain ⟨hw, hm⟩ := ih r.1 r.2 i k1 w1
        exact ⟨hw, by rw [hm, m1]⟩
      · rw [if_neg hlt]
        obtain ⟨hw, hm⟩ := ih r.1 r.2 (i + 1) k1 w1
        exact ⟨hw, by rw [hm, m1]⟩
    · rw [if_neg hilen]
      exact ⟨hwf, rfl⟩

theorem attemptFeatureMerges_facts (mresp : FeatMergeResp) (docs : List Doc)
    (m : ClusterDict) (hwf : WFCD m) :
    WFCD (attemptFeatureMerges mresp docs m) ∧
    membersCD (attemptFeatureMerges mresp docs m) = membersCD m :=
  featOuter_facts mresp docs (2 * (keysCD m).length + 1) m (keysCD m) 0 rfl hwf

theorem tinyBestGo_some (csim : List ℚ → List ℚ → ℚ) (cent : String → Option (List ℚ))
    (m : ClusterDict) (fname : String) (c1 : List ℚ) :
    ∀ (L : List String) (best : Option String) (bs : ℚ),
      (∀ t, best = some t → t ≠ fname ∧ lookupCD m t ≠ none) →
      ∀ t, tinyBestGo csim cent m fname c1 L best bs = some t →
        t ≠ fname ∧ lookupCD m t ≠ none := by
  intro L
  induction L with
  | nil =>
    intro best bs hbest t ht
    exact hbest t ht
  | cons other rest ih =>
    intro best bs hbest t ht
    simp only [tinyBestGo] at ht
    by_cases hskip : other = fname ∨ lookupCD m other = none
    · rw [if_pos hskip] at ht
      exact ih best bs hbest t ht
    · rw [if_neg hskip] at ht
      push_neg at hskip
      cases hc2 : cent other with
      | none =>
        simp only [hc2] at ht
        exact ih best bs hbest t ht
      | some c2 =>
        simp only [hc2] at ht
        by_cases hlt : bs < csim c1 c2
        · rw [if_pos hlt] at ht
          refine ih _ _ ?_ t ht
          intro t' ht'
          obtain rfl : other = t' := by injection ht'
          exact hskip
        · rw [if_neg hlt] at ht
          exact ih best bs hbest t ht

/-- _merge_tiny_clusters only moves or drops members, never invents them:
    the resulting member multiset is contained in the input one. -/
theorem mergeTinyGo_mono (csim : List ℚ → List ℚ → ℚ) (emb : ℕ → List ℚ)
    (minSize : ℕ) (snapshot : List String) :
    ∀ (pending : List String) (m : ClusterDict) (cent : String → Option (List ℚ)),
      WFCD m →
      WFCD (mergeTinyGo csim emb minSize snapshot m cent pending) ∧
      membersCD (mergeTinyGo csim emb minSize snapshot m cent pending) ≤ membersCD m := by
  intro pending
  induction pending with
  | nil =>
    intro m cent hwf
    exact ⟨hwf, le_refl _⟩
  | cons fname rest ih =>
    intro m cent hwf
    simp only [mergeTinyGo]
    have hstep : WFCD (tinyStep csim emb minSize snapshot m cent fname).1 ∧
        membersCD (tinyStep csim emb minSize snapshot m cent fname).1 ≤ membersCD m := by
      cases hlk : lookupCD m fname with
      | none =>
        simp only [tinyStep, hlk]
        exact ⟨hwf, le_refl _⟩
      | some idxs =>
        simp only [tinyStep, hlk]
        by_cases hsz : idxs.length < minSize ∧ 0 < idxs.length
        · rw [if_pos hsz]
          cases hc1 : cent fname with
          | none =>
            simp only [hc1]
            refine ⟨WFCD_popCD _ hwf, ?_⟩
            rw [Multiset.le_iff_exists_add]
            exact ⟨↑idxs, (membersCD_popCD hlk).symm⟩
          | some c1 =>
            simp only [hc1]
            cases hbo : tinyBestGo csim cent m fname c1 snapshot none (-999) with
            | none =>
              simp only [hbo]
              exact ⟨hwf, le_refl _⟩
            | some tgt =>
              simp only [hbo]
              obtain ⟨htne, htlk⟩ := tinyBestGo_some csim cent m fname c1 snapshot
                none (-999) (by intro t ht; simp at ht) tgt hbo
              have htgt : tgt ∈ keysCD m := lookupCD_mem_keys.2 (by
                cases h : lookupCD m tgt with
                | none => exact absurd h htlk
                | some v => rfl)
              obtain ⟨hm, hw, _⟩ := absorb_facts hwf htgt hlk htne
              exact ⟨hw, le_of_eq hm⟩
        · rw [if_neg hsz]
          exact ⟨hwf, le_refl _⟩
    obtain ⟨hw2, hm2⟩ := hstep
    obtain ⟨hw3, hm3⟩ := ih _ (tinyStep csim emb minSize snapshot m cent fname).2 hw2
    exact ⟨hw3, le_trans hm3 hm2⟩

theorem mergeTinyClusters_mono (csim : List ℚ → List ℚ → ℚ) (emb : ℕ → List ℚ)
    (minSize : ℕ) (m : ClusterDict) (hwf : WFCD m) :
    WFCD (mergeTinyClusters csim emb minSize m) ∧
    membersCD (mergeTinyClusters csim emb minSize m) ≤ membersCD m :=
  mergeTinyGo_mono csim emb minSize (keysCD m) (keysCD m) m _ hwf

theorem mem_setCD {m : ClusterDict} {f : String} {v : List ℕ} {p : String × List ℕ}
    (hp : p ∈ setCD m f v) : p = (f, v) ∨ p ∈ m := by
  induction m with
  | nil =>
    simp [setCD] at hp
    exact Or.inl hp
  | cons q rest ih =>
    obtain ⟨k', v'⟩ := q
    by_cases he : k' = f
    · subst he
      rw [setCD, if_pos rfl] at hp
      rcases List.mem_cons.1 hp with h | h
      · exact Or.inl h
      · exact Or.inr (List.mem_cons_of_mem _ h)
    · rw [setCD, if_neg he] at hp
      rcases List.mem_cons.1 hp with h | h
      · exact Or.inr (h ▸ List.mem_cons_self _ _)
      · rcases ih h with h2 | h2
        · exact Or.inl h2
        · exact Or.inr (List.mem_cons_of_mem _ h2)

theorem setCD_members_subset {m : ClusterDict} {f : String} {v : List ℕ} {x : ℕ}
    (hm : x ∉ membersCD m) (hv : x ∉ v) : x ∉ membersCD (setCD m f v) := by
  intro hx
  obtain ⟨p, hp, hxp⟩ := mem_membersCD.1 hx
  rcases mem_setCD hp with h | h
  · subst h
    exact hv hxp
  · exact hm (mem_membersCD.2 ⟨p, h, hxp⟩)

theorem WFCD_setCD (m : ClusterDict) (f : String) (v : List ℕ) (hwf : WFCD m) :
    WFCD (setCD m f v) := by
  by_cases hf : f ∈ keysCD m
  · exact WFCD_setCD_mem v hwf hf
  · rw [setCD_fresh v hf]
    unfold WFCD
    rw [keysCD_append]
    refine List.Nodup.append hwf (by simp [keysCD]) ?_
    rw [List.disjoint_left]
    intro a ha hb
    simp [keysCD] at hb
    exact hf (hb ▸ ha)

/-- Facts about the initial top-down assignment map: keys are unique and
    an index assigned by no feature is a member of no entry. -/
theorem backwardsInitialMap_facts (featureNames : List String) (n : ℕ)
    (scoreOf : String → ℕ → ℚ) (topK : ℕ) (minSim : ℚ) (x : ℕ)
    (hx : ∀ f ∈ featureNames, x ∉ assignDocsToFeature n (scoreOf f) topK minSim) :
    WFCD (backwardsInitialMap featureNames n scoreOf topK minSim) ∧
    x ∉ membersCD (backwardsInitialMap featureNames n scoreOf topK minSim) := by
  unfold backwardsInitialMap
  suffices h : ∀ (fns : List String) (m0 : ClusterDict), WFCD m0 → x ∉ membersCD m0 →
      (∀ f ∈ fns, x ∉ assignDocsToFeature n (scoreOf f) topK minSim) →
      WFCD (fns.foldl (fun m f => setCD m f (assignDocsToFeature n (scoreOf f) topK minSim)) m0) ∧
      x ∉ membersCD (fns.foldl (fun m f => setCD m f (assignDocsToFeature n (scoreOf f) topK minSim)) m0) by
    exact h featureNames [] (by simp [WFCD, keysCD]) (by simp [membersCD]) hx
  intro fns
  induction fns with
  | nil => intro m0 hwf hxm _; exact ⟨hwf, hxm⟩
  | cons f fns ih =>
    intro m0 hwf hxm hall
    simp only [List.foldl_cons]
    exact ih _ (WFCD_setCD m0 f _ hwf)
      (setCD_members_subset hxm (hall f (List.mem_cons_self _ _)))
      (fun g hg => hall g (List.mem_cons_of_mem _ hg))

/-! ## Facts about the initial clustering -/

theorem foldl_appendCD_members (f : ℕ → String) :
    ∀ (L : List ℕ) (d : ClusterDict),
      membersCD (L.foldl (fun d i => appendCD d (f i) i) d) = membersCD d + ↑L := by
  intro L
  induction L with
  | nil =>
    intro d
    simp
  | cons i rest ih =>
    intro d
    simp only [List.foldl_cons]
    rw [ih, membersCD_appendCD, ← Multiset.cons_coe]
    simp only [← Multiset.singleton_add]
    abel

theorem initialClustering_members (n : ℕ) (labels : ℕ → ℕ) :
    membersCD (initialClustering n labels) = ↑(List.range n) := by
  have h := foldl_appendCD_members (fun i => "Cluster_" ++ Nat.repr (labels i))
    (List.range n) []
  have h0 : membersCD ([] : ClusterDict) = 0 := rfl
  calc membersCD (initialClustering n labels)
      = membersCD ([] : ClusterDict) + ↑(List.range n) := h
    _ = ↑(List.range n) := by rw [h0, zero_add]

theorem keysCD_appendCD (k : String) (i : ℕ) :
    ∀ d : ClusterDict,
      keysCD (appendCD d k i)
        = if k ∈ keysCD d then keysCD d else keysCD d ++ [k] := by
  intro d
  induction d with
  | nil => simp [appendCD, keysCD]
  | cons p rest ih =>
    obtain ⟨k', v⟩ := p
    by_cases he : k' = k
    · subst he
      have h1 : appendCD ((k', v) :: rest) k' i = (k', v ++ [i]) :: rest := by
        simp [appendCD]
      have h2 : k' ∈ keysCD ((k', v) :: rest) := by simp [keysCD]
      rw [h1, if_pos h2]
      rfl
    · have h1 : appendCD ((k', v) :: rest) k i = (k', v) :: appendCD rest k i := by
        simp [appendCD, he]
      have hk2 : keysCD ((k', v) :: appendCD rest k i)
          = k' :: keysCD (appendCD rest k i) := rfl
      have hk3 : keysCD ((k', v) :: rest) = k' :: keysCD rest := rfl
      rw [h1, hk2, hk3, ih]
      by_cases hk : k ∈ keysCD rest
      · rw [if_pos hk, if_pos (List.mem_cons_of_mem _ hk)]
      · have hnk : k ∉ k' :: keysCD rest := by
          intro hc
          rcases List.mem_cons.1 hc with hc | hc
          · exact he hc.symm
          · exact hk hc
        rw [if_neg hk, if_neg hnk]
        rfl

theorem WFCD_appendCD (d : ClusterDict) (k : String) (i : ℕ) (hwf : WFCD d) :
    WFCD (appendCD d k i) := by
  unfold WFCD
  rw [keysCD_appendCD]
  by_cases hk : k ∈ keysCD d
  · rw [if_pos hk]
    exact hwf
  · rw [if_neg hk]
    refine List.Nodup.append hwf (List.nodup_singleton k) ?_
    intro a ha hb
    rw [List.mem_singleton] at hb
    exact hk (hb ▸ ha)

theorem initialClustering_WF (n : ℕ) (labels : ℕ → ℕ) :
    WFCD (initialClustering n labels) := by
  have h : ∀ (L : List ℕ) (d : ClusterDict), WFCD d →
      WFCD (L.foldl (fun d i => appendCD d ("Cluster_" ++ Nat.repr (labels i)) i) d) := by
    intro L
    induction L with
    | nil =>
      intro d hd
      exact hd
    | cons i rest ih =>
      intro d hd
      exact ih _ (WFCD_appendCD d _ i hd)
  exact h (List.range n) [] List.Pairwise.nil

/-! ## A concrete corpus exercising the graph builder

docsC8 has the call target alpha sitting at document index 0; docsC8s is
the same corpus with one unrelated document prepended, which moves alpha
to index 1. -/

def docsC8 : List Doc :=
  [⟨"def alpha - body", "method", "alpha", "", "", "a.py"⟩,
   ⟨"def beta - calls alpha", "method", "beta", "alpha", "", "b.py"⟩]

def docsC8s : List Doc :=
  ⟨"def zeta - body", "method", "zeta", "", "", "z.py"⟩ :: docsC8

/-! ## The claims -/

/-- C1: along the bottom-up pipeline the member indices always form a
    partition of the corpus.  The initial clustering distributes exactly the
    indices 0..n-1, each exactly once, into clusters with pairwise distinct
    names; a merge pass, a split pass and a size-normalization pass each
    preserve the multiset of member indices exactly (nothing lost, nothing
    duplicated); and whenever the final naming pass returns a FeatureMap
    (name collisions concatenate member lists there), that map carries
    exactly the member multiset of its input state. -/
theorem claim_C1 (n : ℕ) (labels : ℕ → ℕ) (mresp : MergeResp) (sresp : SplitResp)
    (sub : List ℕ → ℕ → List ℕ) (docs : List Doc) (csim : List ℚ → List ℚ → ℚ)
    (emb : ℕ → List ℚ) (minSize : ℕ) (nresp : NameResp) (known : List String)
    (d : ClusterDict) (hwf : WFCD d) (hok : NamesOk d)
    (hsub : ∀ dis k, 2 ≤ k → (sub dis k).length = dis.length ∧ ∀ l ∈ sub dis k, l < k) :
    membersCD (initialClustering n labels) = ↑(List.range n) ∧
    WFCD (initialClustering n labels) ∧
    membersCD (attemptMerges mresp docs d) = membersCD d ∧
    membersCD (attemptSplits sresp sub docs d) = membersCD d ∧
    membersCD (enforceMinClusterSize csim emb minSize d) = membersCD d ∧
    ∀ r, finalNaming nresp docs known d = Except.ok r → membersCD r = membersCD d := by
  refine ⟨initialClustering_members n labels, initialClustering_WF n labels,
    (attemptMerges_facts mresp docs d hwf).1,
    (attemptSplits_facts sresp sub docs d hwf hok hsub).1,
    (enforceMinClusterSize_facts csim emb minSize d hwf).1, ?_⟩
  intro r h
  have hm := namingGo_members nresp docs known d [] r h
  have h0 : membersCD ([] : ClusterDict) = 0 := rfl
  rw [hm, h0, zero_add]

theorem claim_C1_witness :
    membersCD (attemptMerges (fun _ _ _ _ => "No") [] [("A", [0]), ("B", [1])])
      = membersCD [("A", [0]), ("B", [1])] :=
  (claim_C1 2 (fun i => i) (fun _ _ _ _ => "No") (fun _ _ => "No split needed")
    (fun dis _ => dis.map (fun _ => 0)) [] (fun _ _ => 0) (fun _ => []) 1
    (fun _ _ => Except.ok "Feature") [] [("A", [0]), ("B", [1])]
    (by unfold WFCD; decide)
    (by
      intro c hc k hk m
      refine ne_subNameStr_of_short c m ?_
      have hk2 : k = "A" ∨ k = "B" := by simpa [keysCD] using hk
      rcases hk2 with rfl | rfl <;> decide)
    (by
      intro dis k hk
      refine ⟨by simp, ?_⟩
      intro l hl
      have hl0 : l = 0 := by
        rcases List.mem_map.1 hl with ⟨a, _, ha⟩
        exact ha.symm
      omega)).2.2.1

/-- C2: whatever the per-round oracle responses are, the refinement loop of
    the bottom-up agent executes at least one and at most five
    merge/normalize/split/normalize rounds, returns exactly the state after
    the executed rounds (the last computed state when the limit is hit),
    exits before the round limit only when the last round left the state
    stable, never stops early on an unstable round, and stability is
    precisely equality of the cluster-name set together with equality of
    every cluster member set. -/
theorem claim_C2 (mresp : ℕ → MergeResp) (sresp : ℕ → SplitResp)
    (sub : ℕ → List ℕ → ℕ → List ℕ) (docs : List Doc)
    (csim : List ℚ → List ℚ → ℚ) (emb : ℕ → List ℚ) (minSize : ℕ)
    (d0 : ClusterDict) :
    refineRounds (forwardsStep mresp sresp sub docs csim emb minSize) d0 0 5 ≤ 5 ∧
    1 ≤ refineRounds (forwardsStep mresp sresp sub docs csim emb minSize) d0 0 5 ∧
    refineLoop (forwardsStep mresp sresp sub docs csim emb minSize) d0
      = iterFrom (forwardsStep mresp sresp sub docs csim emb minSize) d0 0
          (refineRounds (forwardsStep mresp sresp sub docs csim emb minSize) d0 0 5) ∧
    (refineRounds (forwardsStep mresp sresp sub docs csim emb minSize) d0 0 5 < 5 →
      stableB
        (iterFrom (forwardsStep mresp sresp sub docs csim emb minSize) d0 0
          (refineRounds (forwardsStep mresp sresp sub docs csim emb minSize) d0 0 5))
        (iterFrom (forwardsStep mresp sresp sub docs csim emb minSize) d0 0
          (refineRounds (forwardsStep mresp sresp sub docs csim emb minSize) d0 0 5 - 1))
        = true) ∧
    (∀ t, t + 1 < refineRounds (forwardsStep mresp sresp sub docs csim emb minSize) d0 0 5 →
      stableB (iterFrom (forwardsStep mresp sresp sub docs csim emb minSize) d0 0 (t + 1))
        (iterFrom (forwardsStep mresp sresp sub docs csim emb minSize) d0 0 t) = false) ∧
    ∀ a b : ClusterDict, stableB a b = true ↔
      ((∀ k, k ∈ keysCD a ↔ k ∈ keysCD b) ∧
        ∀ k ∈ keysCD a, ∀ x : ℕ, x ∈ getCD a k ↔ x ∈ getCD b k) := by
  obtain ⟨h1, h2, h3, h4, h5⟩ :=
    refineAux_spec (forwardsStep mresp sresp sub docs csim emb minSize) 5 d0 0
  exact ⟨h1, h3 (by omega), h2, h4, h5, stableB_iff⟩

/-- C3: after one run of the size normalizer, every cluster of the returned
    state has at least min_cluster_size members, unless the returned state
    has exactly one cluster in total; cosine similarity is only assumed to
    sit in its mathematical range (bounded below by -1). -/
theorem claim_C3 (csim : List ℚ → List ℚ → ℚ) (emb : ℕ → List ℚ) (minSize : ℕ)
    (d : ClusterDict) (hwf : WFCD d) (hcs : ∀ u v, -1 ≤ csim u v) :
    (∀ p ∈ enforceMinClusterSize csim emb minSize d, minSize ≤ p.2.length) ∨
    (keysCD (enforceMinClusterSize csim emb minSize d)).length = 1 :=
  enforceMinClusterSize_minsize csim emb minSize d hwf hcs

theorem claim_C3_witness :
    (∀ p ∈ enforceMinClusterSize (fun _ _ => 0) (fun _ => [1]) 2 [("A", [0]), ("B", [1, 2])],
        2 ≤ p.2.length) ∨
    (keysCD (enforceMinClusterSize (fun _ _ => 0) (fun _ => [1]) 2
        [("A", [0]), ("B", [1, 2])])).length = 1 :=
  claim_C3 (fun _ _ => 0) (fun _ => [1]) 2 [("A", [0]), ("B", [1, 2])]
    (by unfold WFCD; decide) (fun u v => by norm_num)

/-- C4 counterexample: for two elements with identical embeddings the raw
    cosine distance is zero, and an inherits edge between them leaves the
    weighted entry at zero as well, so the weighted distance is not strictly
    below the raw distance. -/
theorem claim_C4_cex :
    adjacencyWeightedDistance (fun _ _ => 1 - 1)
        (updAdj (fun _ _ => none) 0 1 RelType.inherits) 0 1 = (1 - 1 : ℚ) ∧
    ¬ adjacencyWeightedDistance (fun _ _ => 1 - 1)
        (updAdj (fun _ _ => none) 0 1 RelType.inherits) 0 1 < (1 - 1 : ℚ) := by
  have hadj : updAdj (fun _ _ => none) 0 1 RelType.inherits 0 1
      = some RelType.inherits := by
    simp [updAdj]
  constructor
  · simp only [adjacencyWeightedDistance, hadj]
    norm_num [RELATIONSHIP_WEIGHTS]
  · simp only [adjacencyWeightedDistance, hadj]
    norm_num [RELATIONSHIP_WEIGHTS]

/-- C4 amended: the weighting multiplies the entry of every explicit
    off-diagonal edge by its fixed per-kind weight (inherits 0.4,
    inherited_by 0.5, calls 0.6, called_by 0.7) and leaves every other entry
    untouched; for an inherits edge the weighted distance is strictly below
    the raw distance exactly when the raw distance is positive, and equals
    the raw distance when that distance is zero. -/
theorem claim_C4 (base : ℕ → ℕ → ℚ) (adj : AdjMap) (i j : ℕ) :
    RELATIONSHIP_WEIGHTS RelType.inherits = 2/5 ∧
    RELATIONSHIP_WEIGHTS RelType.inherited_by = 1/2 ∧
    RELATIONSHIP_WEIGHTS RelType.calls = 3/5 ∧
    RELATIONSHIP_WEIGHTS RelType.called_by = 7/10 ∧
    (adj i j = none → adjacencyWeightedDistance base adj i j = base i j) ∧
    (∀ r, adj i j = some r → i ≠ j →
      adjacencyWeightedDistance base adj i j = base i j * RELATIONSHIP_WEIGHTS r) ∧
    (adj i j = some RelType.inherits → i ≠ j → 0 < base i j →
      adjacencyWeightedDistance base adj i j < base i j) ∧
    (adj i j = some RelType.inherits → i ≠ j → base i j = 0 →
      adjacencyWeightedDistance base adj i j = base i j) := by
  refine ⟨rfl, rfl, rfl, rfl, ?_, ?_, ?_, ?_⟩
  · intro h
    simp only [adjacencyWeightedDistance, h]
  · intro r h hij
    simp only [adjacencyWeightedDistance, h]
    rw [if_pos hij]
  · intro h hij hpos
    simp only [adjacencyWeightedDistance, h]
    rw [if_pos hij]
    have hw : RELATIONSHIP_WEIGHTS RelType.inherits = 2/5 := rfl
    rw [hw]
    linarith
  · intro h hij h0
    simp only [adjacencyWeightedDistance, h]
    rw [if_pos hij, h0, zero_mul]

/-- C5 counterexample: a single failing naming call makes the whole final
    naming pass raise; the failed cluster does not survive under any
    placeholder name, because the source wraps the call in no handler. -/
theorem claim_C5_cex :
    finalNaming (fun _ _ => Except.error ()) [] [] [("A", [0])] = Except.error () := rfl

/-- C5 amended: the final naming pass returns a FeatureMap exactly when
    every naming call returns; one raised call aborts the whole pass with
    the exception, and whenever the pass does return, the member multiset of
    the input is preserved (collisions concatenate member lists). -/
theorem claim_C5 (nresp : NameResp) (docs : List Doc) (known : List String)
    (d : ClusterDict) :
    ((∃ r, finalNaming nresp docs known d = Except.ok r) ↔
      ∀ p ∈ d, ∃ resp,
        nresp (buildClusterSummary docs p.2) (referenceListStr known) = Except.ok resp) ∧
    ∀ r, finalNaming nresp docs known d = Except.ok r → membersCD r = membersCD d := by
  constructor
  · exact namingGo_ok_iff nresp docs known d []
  · intro r h
    have hm := namingGo_members nresp docs known d [] r h
    have h0 : membersCD ([] : ClusterDict) = 0 := rfl
    rw [hm, h0, zero_add]

/-- C6: the split-directive parser accepts exactly the shape "split into X"
    with an integer X (after strip and lowercase) and is otherwise none, and
    the split pass acts on a cluster only when the parsed X is above one: a
    malformed or no-split answer, or X below two, leaves the cluster
    untouched in the state, while a well-formed directive with X above one
    removes the cluster and installs its X labeled sub-clusters. -/
theorem claim_C6 (sresp : SplitResp) (sub : List ℕ → ℕ → List ℕ) (docs : List Doc)
    (d : ClusterDict) (hwf : WFCD d) (hok : NamesOk d)
    (hsub : ∀ dis k, 2 ≤ k → (sub dis k).length = dis.length ∧ ∀ l ∈ sub dis k, l < k)
    (cname : String) (mems : List ℕ) (hlk : lookupCD d cname = some mems) :
    llmSaysSplit "No split needed" = none ∧
    llmSaysSplit "  Split into 3  " = some 3 ∧
    llmSaysSplit "split into banana" = none ∧
    llmSaysSplit "sure, go ahead" = none ∧
    (∀ resp, llmSaysSplit resp ≠ none →
      pyStartsWith (pyLower (pyStrip resp)) "split into" = true) ∧
    ((∀ xz : ℤ,
        llmSaysSplit (sresp cname (buildClusterSummary docs mems)) = some xz → xz ≤ 1) →
      lookupCD (attemptSplits sresp sub docs d) cname = some mems) ∧
    ∀ xz : ℤ,
      llmSaysSplit (sresp cname (buildClusterSummary docs mems)) = some xz → 1 < xz →
      lookupCD (attemptSplits sresp sub docs d) cname = none ∧
      ∀ s ∈ List.range xz.toNat,
        lookupCD (attemptSplits sresp sub docs d) (subNameStr cname (s + 1))
          = some (selectLbl mems (sub mems xz.toNat) s) := by
  have hmem : cname ∈ keysCD d := lookupCD_mem_keys.2 (by rw [hlk]; rfl)
  obtain ⟨hlow, hhigh⟩ := splitsGo_process sresp sub docs hsub (keysCD d) d hwf hwf
    (fun b hb k hk m => hok b hb k hk m)
    (fun b hb c hc m => hok c hc b hb m)
    cname mems hmem hlk
  refine ⟨by decide, by decide, by decide, by decide, ?_, hlow, hhigh⟩
  intro resp hne
  simp only [llmSaysSplit] at hne
  by_cases hs : pyStartsWith (pyLower (pyStrip resp)) "split into" = true
  · exact hs
  · rw [if_neg hs] at hne
    exact absurd rfl hne

theorem claim_C6_witness :
    llmSaysSplit "  Split into 3  " = some 3 :=
  (claim_C6 (fun _ _ => "No split needed") (fun dis _ => dis.map (fun _ => 0)) []
    [("A", [0, 1])] (by unfold WFCD; decide)
    (by
      intro c hc k hk m
      refine ne_subNameStr_of_short c m ?_
      have hk2 : k = "A" := by simpa [keysCD] using hk
      subst hk2
      decide)
    (by
      intro dis k hk
      refine ⟨by simp, ?_⟩
      intro l hl
      have hl0 : l = 0 := by
        rcases List.mem_map.1 hl with ⟨a, _, ha⟩
        exact ha.symm
      omega)
    "A" [0, 1] (by decide)).2.1

/-- C7: replaying one merge/normalize/split/normalize round with oracle
    answers that all parse as no, on a state the normalizer cannot change
    (every cluster meets the minimum size, or at most one cluster exists),
    returns a state literally identical to the input; the reply text No
    parses as a no for both the merge and the split question. -/
theorem claim_C7 (mresp : MergeResp) (sresp : SplitResp) (sub : List ℕ → ℕ → List ℕ)
    (docs : List Doc) (csim : List ℚ → List ℚ → ℚ) (emb : ℕ → List ℚ)
    (minSize : ℕ) (d : ClusterDict)
    (hmno : ∀ a sa b sb, mergeDecision (mresp a sa b sb) = false)
    (hsno : ∀ c s, llmSaysSplit (sresp c s) = none)
    (hstable : (∀ p ∈ d, minSize ≤ p.2.length) ∨ (keysCD d).length ≤ 1) :
    mergeDecision "No" = false ∧ llmSaysSplit "No" = none ∧
    singlePassMergeSplits mresp sresp sub docs csim emb minSize d = d := by
  refine ⟨by decide, by decide, ?_⟩
  have henf : enforceMinClusterSize csim emb minSize d = d := by
    rcases hstable with h | h
    · exact enforceMinClusterSize_id csim emb minSize d h
    · exact enforceMinClusterSize_small csim emb minSize d h
  unfold singlePassMergeSplits
  rw [attemptMerges_noop mresp docs d hmno, henf,
    attemptSplits_noop sresp sub docs d hsno, henf]

theorem claim_C7_witness :
    singlePassMergeSplits (fun _ _ _ _ => "No") (fun _ _ => "No")
      (fun dis _ => dis.map (fun _ => 0)) [] (fun _ _ => 0) (fun _ => []) 2
      [("A", [0, 1]), ("B", [2, 3])] = [("A", [0, 1]), ("B", [2, 3])] :=
  (claim_C7 (fun _ _ _ _ => "No") (fun _ _ => "No") (fun dis _ => dis.map (fun _ => 0))
    [] (fun _ _ => 0) (fun _ => []) 2 [("A", [0, 1]), ("B", [2, 3])]
    (by
      intro a sa b sb
      show mergeDecision "No" = false
      decide)
    (by
      intro c s
      show llmSaysSplit "No" = none
      decide)
    (Or.inl (by decide))).2.2

/-- C8: the graph builder does not emit the promised bidirectional edge pair
    for every declared relation whose target is present in the corpus: the
    truthiness guard on the assignment expression treats a target that
    resolves to document index 0 like a missing target, so the calls edge of
    docsC8 (beta calls alpha, with alpha at index 0) is dropped silently in
    both directions, while the identical corpus shifted by one position
    (docsC8s, alpha at index 1) receives its calls and called_by pair. -/
theorem claim_C8 :
    methodToIdx docsC8 "alpha" = some 0 ∧
    buildAdjacencyMap docsC8 1 0 = none ∧
    buildAdjacencyMap docsC8 0 1 = none ∧
    methodToIdx docsC8s "alpha" = some 1 ∧
    buildAdjacencyMap docsC8s 2 1 = some RelType.calls ∧
    buildAdjacencyMap docsC8s 1 2 = some RelType.called_by := by
  decide

/-- C9 counterexample: an element whose similarity equals the threshold
    exactly is assigned, although it does not exceed the threshold: the
    source compares with greater-or-equal. -/
theorem claim_C9_cex :
    assignDocsToFeature 1 (fun _ => 3/10) 10 (3/10) = [0] ∧ ¬ ((3 : ℚ)/10 < 3/10) := by
  constructor
  · norm_num [assignDocsToFeature, sortDesc, insDesc, List.range_succ, List.filter]
  · norm_num

/-- C9 amended: each feature is independently assigned at most top_k
    elements, namely exactly the corpus indices whose similarity is at least
    (not strictly above) min_sim_threshold and that fewer than top_k other
    elements beat in the stable descending ranking (higher score, or equal
    score with a smaller index). -/
theorem claim_C9 (n : ℕ) (score : ℕ → ℚ) (topK : ℕ) (minSim : ℚ) (j : ℕ) :
    (assignDocsToFeature n score topK minSim).length ≤ topK ∧
    (j ∈ assignDocsToFeature n score topK minSim ↔
      j < n ∧ minSim ≤ score j ∧ aheadCount n score j < topK) :=
  ⟨assignDocs_length_le n score topK minSim, assignDocs_mem_iff n score topK minSim j⟩

/-- C10: an element that every proposed feature scores below the threshold,
    or that never ranks within the top_k of any feature, is a member of no
    entry of the final top-down index map, and therefore appears in no list
    of the rendered FeatureMap, whose lists are exactly renderings of the
    index lists: the top-down output need not cover the corpus. -/
theorem claim_C10 (featureNames : List String) (n : ℕ) (scoreOf : String → ℕ → ℚ)
    (topK : ℕ) (minSim : ℚ) (mresp : FeatMergeResp) (docs : List Doc)
    (csim : List ℚ → List ℚ → ℚ) (emb : ℕ → List ℚ) (minSize : ℕ) (x : ℕ)
    (hx : ∀ f ∈ featureNames,
      scoreOf f x < minSim ∨ topK ≤ aheadCount n (scoreOf f) x) :
    x ∉ membersCD (backwardsFinalMap featureNames n scoreOf topK minSim
        mresp docs csim emb minSize) ∧
    (∀ p ∈ backwardsFinalMap featureNames n scoreOf topK minSim mresp docs csim emb minSize,
      x ∉ p.2) ∧
    ∀ q ∈ backwardsFeatureDict featureNames n scoreOf topK minSim mresp docs csim emb minSize,
      ∃ p ∈ backwardsFinalMap featureNames n scoreOf topK minSim mresp docs csim emb minSize,
        q.2 = p.2.map (renderLabel docs) := by
  have hxassign : ∀ f ∈ featureNames, x ∉ assignDocsToFeature n (scoreOf f) topK minSim := by
    intro f hf hxin
    rcases (assignDocs_mem_iff n (scoreOf f) topK minSim x).1 hxin with ⟨_, hge, hlt⟩
    rcases hx f hf with h | h
    · exact absurd hge (not_le.2 h)
    · exact absurd hlt (not_lt.2 h)
  obtain ⟨hwf0, hxm0⟩ :=
    backwardsInitialMap_facts featureNames n scoreOf topK minSim x hxassign
  obtain ⟨hwf1, hm1⟩ := attemptFeatureMerges_facts mresp docs _ hwf0
  obtain ⟨hwf2, hm2⟩ := mergeTinyClusters_mono csim emb minSize _ hwf1
  have hxfin : x ∉ membersCD (backwardsFinalMap featureNames n scoreOf topK minSim
      mresp docs csim emb minSize) := by
    intro hxin
    exact hxm0 (hm1 ▸ Multiset.mem_of_le hm2 hxin)
  refine ⟨hxfin, ?_, ?_⟩
  · intro p hp hxp
    exact hxfin (mem_membersCD.2 ⟨p, hp, hxp⟩)
  · intro q hq
    obtain ⟨p, hp, hpq⟩ := List.mem_map.1 hq
    subst hpq
    exact ⟨p, hp, rfl⟩

theorem claim_C10_witness :
    (0 : ℕ) ∉ membersCD (backwardsFinalMap ["F"] 1 (fun _ _ => 0) 10 (3/10)
      (fun _ _ _ _ => "No") [] (fun _ _ => 0) (fun _ => []) 2) :=
  (claim_C10 ["F"] 1 (fun _ _ => 0) 10 (3/10) (fun _ _ _ _ => "No") [] (fun _ _ => 0)
    (fun _ => []) 2 0
    (by
      intro f hf
      left
      norm_num)).1

end Compass
